import Mathlib

/-!
Verification of the incremental, parallel grid-recalculation engine of the
`tafel` repository: shallow embedding of the grid entity model
(`src/model/components/*.py`), the segmentation engine
(`src/model/Model.py`, `segment_model`), the comparison predicates used by
selective recalculation, the per-slot calculator behaviour
(`src/model/calculation/pypsa/*.py`) and the orchestration pipeline
(`src/model/calculation/ModelProcessor.py`, `src/SmartGridTable.py`),
together with proofs and refutations of the specified properties.

Python `float` fields are embedded as `Rat`; they are carried as data and
never computed with in the verified fragment.  Mutable object state is
embedded by explicit state passing.
-/

namespace Tafel

/-- Embeds `components/Bus.py`: `name`, nominal voltage, plus the
`Component` base fields used by the engine (`active`, `changed`).
Python `__eq__` is keyed on `(name, changed)` and is embedded separately
as `Bus.key`/`Bus.beq`. -/
structure Bus where
  name : String
  v_nom : Rat := 0
  control : String := "PQ"
  active : Bool := true
  changed : Bool := false
deriving DecidableEq, Repr, Inhabited

/-- Embeds `components/Line.py`. -/
structure Line where
  name : String
  bus0 : String
  bus1 : String
  x : Rat := 0
  r : Rat := 0
  s_nom : Rat := 0
  length : Rat := 0
  s_nom_extendable : Bool := true
  active : Bool := true
  changed : Bool := false
  output : List Bool := [false]
  active_power : List Rat := [0]
deriving DecidableEq, Repr, Inhabited

/-- Embeds `components/Transformer.py`. -/
structure Transformer where
  name : String
  bus0 : String
  bus1 : String
  x : Rat := 0
  r : Rat := 0
  model : String := ""
  s_nom_extendable : Bool := false
  capacity : Rat := 0
  active : Bool := true
  changed : Bool := false
  output : List Bool := [false]
  active_power_0 : List Rat := [0]
deriving DecidableEq, Repr, Inhabited

/-- Embeds `components/Generator.py`. -/
structure Generator where
  name : String
  bus0 : String
  p_nom : Rat := 0
  p_set : Rat := 0
  q_set : Rat := 0
  p_min_pu : Rat := 0
  p_max_pu : Rat := 1
  p_nom_min : Rat := 0
  p_nom_max : Rat := 1000000
  marginal_cost : Rat := 0
  p_nom_extendable : Bool := false
  active : Bool := true
  changed : Bool := false
  output : List Bool := [false]
  active_power : List Rat := [0]
deriving DecidableEq, Repr, Inhabited

/-- Embeds `components/Load.py`. -/
structure Load where
  name : String
  bus0 : String
  carrier : String := "AC"
  p_set : Rat := 0
  q_set : Rat := 0
  active : Bool := true
  changed : Bool := false
  output : List Bool := [false]
  active_power : List Rat := [0]
deriving DecidableEq, Repr, Inhabited

/-- Embeds `components/StorageUnit.py`. -/
structure StorageUnit where
  name : String
  bus0 : String
  p_nom : Rat := 0
  p_nom_min : Rat := 0
  p_nom_max : Rat := 1000000
  p_nom_extendable : Bool := false
  marginal_cost : Rat := 0
  state_of_charge_initial : Rat := 0
  active : Bool := true
  changed : Bool := false
  output : List Bool := [false]
  active_power : List Rat := [0]
deriving DecidableEq, Repr, Inhabited

/-- Python `Bus.__key`: the pair on which equality and hashing are keyed. -/
def Bus.key (b : Bus) : String × Bool := (b.name, b.changed)

/-- Python `Line.__key`. -/
def Line.key (l : Line) : String × Bool := (l.name, l.changed)

/-- Python `Transformer.__key`. -/
def Transformer.key (t : Transformer) : String × Bool := (t.name, t.changed)

/-- Python `Generator.__key`. -/
def Generator.key (g : Generator) : String × Bool := (g.name, g.changed)

/-- Python `Load.__key`. -/
def Load.key (l : Load) : String × Bool := (l.name, l.changed)

/-- Python `StorageUnit.__key`. -/
def StorageUnit.key (s : StorageUnit) : String × Bool := (s.name, s.changed)

/-- Python `==` on two entities of the same class: `__key` comparison. -/
def Bus.beq (a b : Bus) : Bool := a.key = b.key

/-- Python `==` on lines. -/
def Line.beq (a b : Line) : Bool := a.key = b.key

/-- Python `==` on transformers. -/
def Transformer.beq (a b : Transformer) : Bool := a.key = b.key

/-- Python `==` on generators. -/
def Generator.beq (a b : Generator) : Bool := a.key = b.key

/-- Python `==` on loads. -/
def Load.beq (a b : Load) : Bool := a.key = b.key

/-- Python `==` on storage units. -/
def StorageUnit.beq (a b : StorageUnit) : Bool := a.key = b.key

/-- Embeds `model/Model.py` class `Model`: four entity kinds in flat lists. -/
structure Model where
  buses : List Bus := []
  lines : List Line := []
  transformers : List Transformer := []
  generators : List Generator := []
  loads : List Load := []
  storage_units : List StorageUnit := []
deriving DecidableEq, Repr, Inhabited

/-- The empty model, as produced by `Model.__init__`. -/
def Model.empty : Model := {}

/-- Python list `==`: equal length and elementwise `__eq__`. -/
def listEqBy (eq : α → α → Bool) : List α → List α → Bool
  | [], [] => true
  | a :: as, b :: bs => eq a b && listEqBy eq as bs
  | _, _ => false

/-- Embeds `Model.compare_model_structure`: length guards on buses and
lines followed by Python list equality (elementwise `(name, changed)`
comparison). -/
def Model.compare_model_structure (self other : Model) : Bool :=
  if self.buses.length ≠ other.buses.length ∨
     self.lines.length ≠ other.lines.length then
    false
  else if ¬ (listEqBy Bus.beq self.buses other.buses = true) ∨
          ¬ (listEqBy Line.beq self.lines other.lines = true) then
    false
  else
    true

/-- Embeds `Model.compare_model_components`: length guards on generators,
loads, storage units and transformers followed by Python list equality. -/
def Model.compare_model_components (self other : Model) : Bool :=
  if self.generators.length ≠ other.generators.length ∨
     self.loads.length ≠ other.loads.length ∨
     self.storage_units.length ≠ other.storage_units.length ∨
     self.transformers.length ≠ other.transformers.length then
    false
  else if ¬ (listEqBy Generator.beq self.generators other.generators = true) ∨
          ¬ (listEqBy Load.beq self.loads other.loads = true) ∨
          ¬ (listEqBy StorageUnit.beq self.storage_units other.storage_units = true) ∨
          ¬ (listEqBy Transformer.beq self.transformers other.transformers = true) then
    false
  else
    true

/-- Embeds `Model.reset_changed_components`: clear every entity's
`changed` flag. -/
def Model.reset_changed_components (m : Model) : Model :=
  { buses := m.buses.map (fun b => { b with changed := false })
    lines := m.lines.map (fun l => { l with changed := false })
    transformers := m.transformers.map (fun t => { t with changed := false })
    generators := m.generators.map (fun g => { g with changed := false })
    loads := m.loads.map (fun l => { l with changed := false })
    storage_units := m.storage_units.map (fun s => { s with changed := false }) }

/-! ## Segmentation engine (`Model.py`, `segment_model`) -/

/-- Embeds the dataclass `BusIndex` of `Model.py`. -/
structure BusIndex where
  index : Nat
  segment : Int
  bus_name : String
deriving DecidableEq, Repr

/-- One entry of `connection_list`: the only fields of a line or
transformer read by the flood fill are its two endpoint names. -/
structure Connection where
  bus0 : String
  bus1 : String
deriving DecidableEq, Repr

/-- The `connection_list` built at the top of `segment_model`: all active
lines followed by all active transformers. -/
def connectionList (m : Model) : List Connection :=
  (m.lines.filter (fun l => l.active)).map (fun l => ⟨l.bus0, l.bus1⟩) ++
  (m.transformers.filter (fun t => t.active)).map (fun t => ⟨t.bus0, t.bus1⟩)

/-- The `for other_bus in bus_index_list` search: assign segment `gid` to
the first list element whose `bus_name` matches and whose segment is still
`-1`; report whether an assignment happened. -/
def assignFirst (nm : String) (gid : Int) : List BusIndex → List BusIndex × Bool
  | [] => ([], false)
  | b :: rest =>
    if b.bus_name = nm ∧ b.segment = -1 then
      ({ b with segment := gid } :: rest, true)
    else
      (b :: (assignFirst nm gid rest).1, (assignFirst nm gid rest).2)

/-- Processing of one `connection` against the current bus `bn` inside the
flood fill: the `bus0` match propagates to `bus1` and the `bus1` match
propagates to `bus0`. -/
def processConnection (bn : String) (gid : Int) (c : Connection)
    (l : List BusIndex) : List BusIndex × Bool :=
  let r0 := if c.bus0 = bn then assignFirst c.bus1 gid l else (l, false)
  let r1 := if c.bus1 = bn then assignFirst c.bus0 gid r0.1 else (r0.1, false)
  (r1.1, r0.2 || r1.2)

/-- The `for connection in connection_list` loop for one flooding bus. -/
def floodStep (conns : List Connection) (gid : Int) (bn : String)
    (l : List BusIndex) : List BusIndex × Bool :=
  conns.foldl
    (fun acc c =>
      let r := processConnection bn gid c acc.1
      (r.1, acc.2 || r.2))
    (l, false)

/-- The `for bus_index in bus_index_list` sweep of one flood-fill pass,
position by position; assignments made earlier in the pass are visible at
later positions, exactly as in the mutating Python loop. -/
def floodPassAux (conns : List Connection) (gid : Int) :
    Nat → Nat → List BusIndex → Bool → List BusIndex × Bool
  | 0, _, l, alloc => (l, alloc)
  | fuel + 1, i, l, alloc =>
    match l[i]? with
    | none => (l, alloc)
    | some b =>
      if b.segment = gid then
        let r := floodStep conns gid b.bus_name l
        floodPassAux conns gid fuel (i + 1) r.1 (alloc || r.2)
      else
        floodPassAux conns gid fuel (i + 1) l alloc

/-- One full pass of the inner `while bus_segment_allocated` body. -/
def floodPass (conns : List Connection) (gid : Int) (l : List BusIndex) :
    List BusIndex × Bool :=
  floodPassAux conns gid l.length 0 l false

/-- The inner `while bus_segment_allocated` loop: repeat passes until one
makes no assignment.  `fuel` bounds the pass count; `length + 1` passes
always suffice because every continuing pass assigns at least one bus. -/
def floodLoop (conns : List Connection) (gid : Int) :
    Nat → List BusIndex → List BusIndex
  | 0, l => l
  | fuel + 1, l =>
    let r := floodPass conns gid l
    if r.2 then floodLoop conns gid fuel r.1 else r.1

/-- The seed search at the top of the outer loop: give the first bus still
at segment `-1` the current grid id. -/
def seedFirst (gid : Int) : List BusIndex → List BusIndex
  | [] => []
  | b :: rest =>
    if b.segment = -1 then { b with segment := gid } :: rest
    else b :: seedFirst gid rest

/-- The outer `while not finished` loop of `segment_model`: bump the grid
id, seed, test whether any bus is still unassigned (this is the `finished`
flag, computed after seeding), flood-fill the current id to exhaustion,
and repeat while not finished.  Returns the final `current_grid_id` and
the final bus index list. -/
def outerLoop (conns : List Connection) :
    Nat → Int → List BusIndex → Int × List BusIndex
  | 0, gid, l => (gid, l)
  | fuel + 1, gid, l =>
    let gid' := gid + 1
    let l1 := seedFirst gid' l
    let finished := ¬ (l1.any (fun b => b.segment == -1) = true)
    let l2 := floodLoop conns gid' (l1.length + 1) l1
    if finished then (gid', l2) else outerLoop conns fuel gid' l2

/-- The model-compilation phase of `segment_model` restricted to one
output slot `i`: every bus index carrying segment `i` contributes its bus
(`bus_list[bus_index.index]`), the active lines and transformers whose
`bus0` names it, and all generators, loads and storage units whose `bus0`
names it, in input order. -/
def compileModel (m : Model) (busList : List Bus) (l : List BusIndex)
    (i : Int) : Model :=
  let members := l.filter (fun bi => bi.segment = i)
  { buses := members.map (fun bi => (busList[bi.index]?).getD default)
    lines := members.flatMap
      (fun bi => m.lines.filter (fun ln => ln.bus0 = bi.bus_name ∧ ln.active))
    transformers := members.flatMap
      (fun bi => m.transformers.filter (fun t => t.bus0 = bi.bus_name ∧ t.active))
    generators := members.flatMap
      (fun bi => m.generators.filter (fun g => g.bus0 = bi.bus_name))
    loads := members.flatMap
      (fun bi => m.loads.filter (fun ld => ld.bus0 = bi.bus_name))
    storage_units := members.flatMap
      (fun bi => m.storage_units.filter (fun s => s.bus0 = bi.bus_name)) }

/-- The initial `bus_index_list`: one `BusIndex` per bus, segment `-1`. -/
def initBusIndexList (busList : List Bus) : List BusIndex :=
  (List.range busList.length).map
    (fun i => ⟨i, -1, ((busList[i]?).getD default).name⟩)

/-- Embeds `segment_model` of `Model.py`: run the segmentation loops
starting from `current_grid_id = -1`, take `models_found` to be the final
grid id, and compile one output model per id in `range models_found`.
The timing and `verbose` printing of the source are side effects with no
bearing on the result and are not represented. -/
def segment_model (input_model : Model) : List Model :=
  let busList := input_model.buses
  let conns := connectionList input_model
  let init := initBusIndexList busList
  let res := outerLoop conns (busList.length + 1) (-1) init
  let models_found := res.1.toNat
  (List.range models_found).map
    (fun i => compileModel input_model busList res.2 (Int.ofNat i))

/-! ## Worker-slot calculators (`calculation/pypsa/*.py`)

The external PyPSA solver is opaque; a solver invocation is embedded as an
`Except Unit` value: `Except.error ()` is a raised exception, `Except.ok`
a normal return (for `lopf`, returning its status/condition pair).  The
builder-side effects (`_reset_lines`, `_retrieve_results`) only touch the
per-snapshot output arrays and are not reflected in the result record. -/

/-- The observable outcome of one `calculate()` call of a slot: the
status and condition strings it stores, whether the external solver was
actually invoked, and the boolean `succes` return value. -/
structure CalcResult where
  status : String
  condition : String
  solver_invoked : Bool
  succes : Bool
deriving DecidableEq, Repr

/-- The definitional "no generation" failure record produced without any
solver invocation. -/
def noGenResult : CalcResult := ⟨"failed", "no generation", false, false⟩

/-- Embeds `PyPSACalculatorLOPF.calculate`: no-generation guard over
generators *and* storage units, then `self._pypsa_model.lopf()` with no
exception handler — a raised exception propagates out.  On a normal
return the status tuple is stored and success means
`status = "ok" ∧ condition = "optimal"`. -/
def PyPSACalculatorLOPF.calculate (input_model : Model)
    (solver : Except Unit (String × String)) : Except Unit CalcResult :=
  if input_model.generators.length = 0 ∧ input_model.storage_units.length = 0 then
    Except.ok noGenResult
  else
    match solver with
    | Except.error e => Except.error e
    | Except.ok st =>
      Except.ok ⟨st.1, st.2, true, st.1 == "ok" && st.2 == "optimal"⟩

/-- Embeds `PyPSACalculatorLPF.calculate`: the no-generation guard tests
only `len(generators) == 0` (storage units are not consulted), and the
`lpf()` call is wrapped in `try/except` reporting
`status = "warning", condition = "failed"` on a raised exception. -/
def PyPSACalculatorLPF.calculate (input_model : Model)
    (solver : Except Unit Unit) : Except Unit CalcResult :=
  if input_model.generators.length = 0 then
    Except.ok noGenResult
  else
    match solver with
    | Except.error _ => Except.ok ⟨"warning", "failed", true, false⟩
    | Except.ok _ => Except.ok ⟨"ok", "succes", true, true⟩

/-- Embeds `PyPSACalculatorPF.calculate`: no-generation guard over
generators and storage units; the `lpf()`/`pf(use_seed=True)` pair is
wrapped in `try/except` reporting `status = "warning",
condition = "failed"` on a raised exception. -/
def PyPSACalculatorPF.calculate (input_model : Model)
    (solver : Except Unit Unit) : Except Unit CalcResult :=
  if input_model.generators.length = 0 ∧ input_model.storage_units.length = 0 then
    Except.ok noGenResult
  else
    match solver with
    | Except.error _ => Except.ok ⟨"warning", "failed", true, false⟩
    | Except.ok _ => Except.ok ⟨"ok", "succes", true, true⟩

/-! ## Worker-slot round (`CalculatorThreadManager.__calculate_thread`) -/

/-- What a slot reads back from its calculation instance after
`calculate()` returns: the four getter values of the solver interface. -/
structure SolverRunResult where
  build_time : Rat
  calculation_time : Rat
  status : String
  condition : String
deriving DecidableEq, Repr

/-- The fields of `ThreadData` observable by the orchestrator, plus
whether the worker loop is still alive. -/
structure SlotState where
  build_time : Rat
  calculation_time : Rat
  status : String
  status_extended : String
  finished_event : Bool
  thread_alive : Bool
deriving DecidableEq, Repr

/-- Ordered events of one slot round, used to state in which order the
slot publishes results, signals completion and exports. -/
inductive ThreadEvent where
  | calcRaised
  | setStatusFields
  | signalFinished
  | exportAttempt
deriving DecidableEq, Repr

/-- Embeds the post-wakeup body of one `__calculate_thread` loop
iteration: run `build_model`/`calculate` (a raised exception kills the
worker thread before any result or signal is published), then store the
four getter values into the `ThreadData` fields, then set
`finished_event`, then call `export_result` (whose own exception kills
the thread only after the signal is already set). -/
def calculate_thread_round (init : SlotState)
    (calcOutcome : Except Unit SolverRunResult) (exportOutcome : Except Unit Unit) :
    SlotState × List ThreadEvent :=
  match calcOutcome with
  | Except.error _ =>
    ({ init with thread_alive := false }, [ThreadEvent.calcRaised])
  | Except.ok r =>
    let st1 := { init with
      build_time := r.build_time
      calculation_time := r.calculation_time
      status := r.status
      status_extended := r.condition }
    let st2 := { st1 with finished_event := true }
    match exportOutcome with
    | Except.ok _ =>
      (st2, [ThreadEvent.setStatusFields, ThreadEvent.signalFinished,
             ThreadEvent.exportAttempt])
    | Except.error _ =>
      ({ st2 with thread_alive := false },
       [ThreadEvent.setStatusFields, ThreadEvent.signalFinished,
        ThreadEvent.exportAttempt])

/-! ## Orchestrator (`ModelProcessor.py`, `SmartGridTable.py`) -/

/-- Embeds `ModelProcessor.selective_calculate`: segment the input model,
keep only the segments for which no cached previous segment is both
component-equal and structure-equal, and replace the cache by a deep copy
of the new partition (value copy here).  Returns the dispatched list and
the new cache.  The `previous != None` guard of the source is always
true (the cache is initialised to `[]`), and the dead
`previous == None` re-assignment afterwards never fires. -/
def selective_calculate (previous : List Model) (input_model : Model) :
    List Model × List Model :=
  let segmented := segment_model input_model
  let dispatched := segmented.filter
    (fun mdl =>
      ¬ (previous.any
          (fun existing_model =>
            mdl.compare_model_components existing_model &&
            mdl.compare_model_structure existing_model) = true))
  (dispatched, segmented)

/-- Embeds the calculation core of `SmartGridTable.selective_calculate`:
run the processor's selective round on the live combined model, then
clear the live model's `changed` flags (`model.reset_changed_components()`
— the deep-copied cache keeps the flags it was copied with).  Returns
the dispatched segments, the new cache, and the live model as it stands
for the next round. -/
def table_selective_calculate (previous : List Model) (live : Model) :
    List Model × List Model × Model :=
  let r := selective_calculate previous live
  (r.1, r.2, live.reset_changed_components)

/-! ## Specification-side connectivity (claim C8)

The claim's reference graph: vertices are the model's buses, edges are
exactly the active lines and active transformers, each joining `bus0`
and `bus1` symmetrically. -/

/-- The bus names of a model. -/
def busNames (m : Model) : List String := m.buses.map Bus.name

/-- Two names are joined by an undirected edge of the connection list. -/
def edgeNm (conns : List Connection) (x y : String) : Prop :=
  ∃ c ∈ conns, (c.bus0 = x ∧ c.bus1 = y) ∨ (c.bus0 = y ∧ c.bus1 = x)

/-- Formalises the claim's notion of a path in the undirected graph of
active edges: reflexive-transitive chains of `edgeNm` steps through bus
names of the model. -/
inductive Connected (m : Model) : String → String → Prop
  | refl (x : String) (hx : x ∈ busNames m) : Connected m x x
  | tail (x y z : String) (hxy : Connected m x y)
      (hyz : edgeNm (connectionList m) y z) (hz : z ∈ busNames m) :
      Connected m x z

/-! ## Concrete instances used by counterexamples and witnesses -/

/-- A model with a single bus and no edges. -/
def mSingle : Model := { buses := [{ name := "A" }] }

/-- Buses `A`–`B` joined by an active line, plus the isolated bus `X`
listed last. -/
def mIso : Model :=
  { buses := [{ name := "A" }, { name := "B" }, { name := "X" }]
    lines := [{ name := "L", bus0 := "A", bus1 := "B" }] }

/-- Buses `A`–`B` joined by an active line. -/
def mAB : Model :=
  { buses := [{ name := "A" }, { name := "B" }]
    lines := [{ name := "L", bus0 := "A", bus1 := "B" }] }

/-- Model `mAB` with an inactive generator attached to `A`. -/
def mC5 : Model :=
  { mAB with generators := [{ name := "G", bus0 := "A", active := false }] }

/-- The live combined model at the first selective round: the `A`–`B`
line carries `changed = true`, everything else is untouched. -/
def liveC2 : Model :=
  { buses := [{ name := "A" }, { name := "B" }]
    lines := [{ name := "L", bus0 := "A", bus1 := "B", changed := true }]
    generators := [{ name := "G", bus0 := "A" }] }

/-- A segment with a storage unit but no generator. -/
def mStor : Model :=
  { buses := [{ name := "A" }]
    storage_units := [{ name := "S", bus0 := "A" }] }

/-- A segment with one generator (so the calculators reach the solver). -/
def mGen : Model :=
  { buses := [{ name := "A" }]
    generators := [{ name := "G", bus0 := "A" }] }

/-- Two-bus models whose bus lists are permutations of each other. -/
def moAB : Model := { buses := [{ name := "A" }, { name := "B" }] }

/-- Model `moAB` with the bus list reversed. -/
def moBA : Model := { buses := [{ name := "B" }, { name := "A" }] }

/-- Two generators in one order. -/
def mgGH : Model :=
  { buses := [{ name := "A" }]
    generators := [{ name := "G", bus0 := "A" }, { name := "H", bus0 := "A" }] }

/-- The same two generators in the other order. -/
def mgHG : Model :=
  { buses := [{ name := "A" }]
    generators := [{ name := "H", bus0 := "A" }, { name := "G", bus0 := "A" }] }

/-- Model `mAB` plus entities whose `bus0` (`"ghost"`) names no bus of the
model; the line's `bus1` does name a bus. -/
def mGhost : Model :=
  { buses := [{ name := "A" }, { name := "B" }]
    lines := [{ name := "L", bus0 := "A", bus1 := "B" },
              { name := "LG", bus0 := "ghost", bus1 := "A" }]
    transformers := [{ name := "TG", bus0 := "ghost", bus1 := "A" }]
    generators := [{ name := "GG", bus0 := "ghost" }]
    loads := [{ name := "DG", bus0 := "ghost" }]
    storage_units := [{ name := "SG", bus0 := "ghost" }] }

/-- The ghost line of `mGhost`. -/
def lineGhost : Line := { name := "LG", bus0 := "ghost", bus1 := "A" }

/-- The ghost generator of `mGhost`. -/
def genGhost : Generator := { name := "GG", bus0 := "ghost" }

/-- A slot state before a round. -/
def slot0 : SlotState :=
  { build_time := 0, calculation_time := 0, status := "ok"
    status_extended := "booting", finished_event := false, thread_alive := true }

/-- A solver run result with distinctive values. -/
def run0 : SolverRunResult :=
  { build_time := 3, calculation_time := 7, status := "ok", condition := "optimal" }

/-- The first segment produced for `mC5`. -/
def segC5 : Model := (segment_model mC5).getD 0 Model.empty

/-- The active `A`–`B` line. -/
def lineL : Line := { name := "L", bus0 := "A", bus1 := "B" }

/-- The first segment produced for `mGhost`. -/
def segGhost : Model := (segment_model mGhost).getD 0 Model.empty

/-- The first segment produced for `mAB`. -/
def segAB : Model := (segment_model mAB).getD 0 Model.empty

/-- Bus `A` of the two-bus example. -/
def busA : Bus := { name := "A" }

/-- Bus `B` of the two-bus example. -/
def busB : Bus := { name := "B" }

/-! ## Invariant language for the segmentation proof -/

/-- Number of bus indices still unassigned (`segment == -1`). -/
def UC (l : List BusIndex) : Nat := l.countP (fun b => b.segment == -1)

/-- Invariant maintained while flood-filling grid id `gid`: every working
entry names a bus of the model; segments stay in `[-1, gid]`; entries
sharing a non-negative segment id are connected; and the segment classes
of earlier (smaller) ids are already adjacency-closed. -/
structure FInv (m : Model) (gid : Int) (l : List BusIndex) : Prop where
  names : ∀ b ∈ l, b.bus_name ∈ busNames m
  range : ∀ b ∈ l, -1 ≤ b.segment ∧ b.segment ≤ gid
  conn : ∀ b ∈ l, ∀ b' ∈ l, 0 ≤ b.segment → b.segment = b'.segment →
    Connected m b.bus_name b'.bus_name
  oldfix : ∀ b ∈ l, ∀ b' ∈ l,
    edgeNm (connectionList m) b.bus_name b'.bus_name →
    0 ≤ b.segment → b.segment < gid → b'.segment = b.segment

/-- Invariant at the boundaries of the outer loop, after grid id `g` has
been flooded to exhaustion: `FInv` plus full adjacency—entries joined by
an active edge carry the same segment value (`-1` included). -/
structure BInv (m : Model) (g : Int) (l : List BusIndex) : Prop where
  fin : FInv m g l
  eqadj : ∀ b ∈ l, ∀ b' ∈ l,
    edgeNm (connectionList m) b.bus_name b'.bus_name → b.segment = b'.segment

/-- Abstracts the flood-fill assignments at grid id `gid`: each step
assigns `gid` to one entry that is unassigned and adjacent to an entry
already carrying `gid`. -/
inductive Reach (m : Model) (gid : Int) : List BusIndex → List BusIndex → Prop
  | refl (l : List BusIndex) : Reach m gid l l
  | step (pre : List BusIndex) (e : BusIndex) (post l₂ : List BusIndex)
      (hseg : e.segment = -1)
      (ht : ∃ t ∈ pre ++ e :: post, t.segment = gid ∧
        edgeNm (connectionList m) t.bus_name e.bus_name)
      (h2 : Reach m gid (pre ++ { e with segment := gid } :: post) l₂) :
      Reach m gid (pre ++ e :: post) l₂

/-! ## Theorems: settled claims -/

/-- C1.  The claimed partition completeness/disjointness law fails on the
code: a model consisting of one bus and no edges is segmented to the
empty list, so the bus appears in no segment at all and the bus-count sum
is `0`, not `1` (the final seeded component of the outer loop is dropped
whenever it is a singleton, because `models_found` is taken from
`current_grid_id` before it is bumped past the last component). -/
theorem C1_partition_completeness_fails :
    mSingle.buses.length = 1 ∧ segment_model mSingle = [] ∧
    ((segment_model mSingle).map (fun s => s.buses.length)).sum = 0 := by
  decide

/-- C2.  The selective-skip law fails on the code: starting from a live
model whose only line carries `changed = true`, the first selective round
dispatches the single segment and caches the partition by deep copy
*before* `SmartGridTable.selective_calculate` clears the live model's
`changed` flags, so the cache keeps `changed = true` while the untouched
re-segmentation of the second round carries `changed = false`; the
`(name, changed)` comparison therefore fails to match and the second
round dispatches one segment, not zero.  (The third round, whose cache
was built from cleared flags, finally dispatches zero.) -/
theorem C2_selective_skip_fails :
    (table_selective_calculate [] liveC2).1.length = 1 ∧
    ((table_selective_calculate [] liveC2).2.2.lines.map Line.changed = [false]) ∧
    (table_selective_calculate (table_selective_calculate [] liveC2).2.1
      (table_selective_calculate [] liveC2).2.2).1.length = 1 := by
  decide

/-- C4.  The zero-bus half of the claim holds (`segment_model` of the
empty model is `[]`), but the isolated-bus half fails: in `mIso` the bus
`X` touches no edge, yet the output is a single segment holding exactly
`A` and `B` — `X` is in no segment, instead of forming its own single-bus
segment. -/
theorem C4_isolated_bus_dropped :
    segment_model Model.empty = [] ∧
    mIso.buses.map Bus.name = ["A", "B", "X"] ∧
    mIso.lines.map (fun l => (l.bus0, l.bus1, l.active)) = [("A", "B", true)] ∧
    mIso.transformers = [] ∧
    (segment_model mIso).map (fun s => s.buses.map Bus.name) = [["A", "B"]] := by
  decide

/-- C5 counterexample.  An inactive generator is not excluded from
segmentation: segmenting `mC5` yields one segment whose generator list
contains the generator `G` with `active = false`, refuting "every entity
contained in any segment has `active = True`". -/
theorem C5_counterexample_inactive_generator_included :
    (segment_model mC5).map
      (fun s => s.generators.map (fun g => (g.name, g.active))) = [[("G", false)]] := by
  decide

/-- C5 as amended.  Only the edge kinds are filtered by the `active` flag
during segmentation: every line and every transformer of every returned
segment is active (generators, loads and storage units are grouped by
`bus0` regardless of their `active` flag, as the counterexample shows). -/
theorem C5_amended_only_edges_filtered_by_active :
    ∀ (m : Model), ∀ seg ∈ segment_model m,
      (∀ l ∈ seg.lines, l.active = true) ∧
      (∀ t ∈ seg.transformers, t.active = true) := by
  intro m seg hseg
  unfold segment_model at hseg
  simp only [List.mem_map, List.mem_range] at hseg
  obtain ⟨i, _, rfl⟩ := hseg
  refine ⟨?_, ?_⟩
  · intro l hl
    unfold compileModel at hl
    simp only [List.mem_flatMap, List.mem_filter, decide_eq_true_eq] at hl
    obtain ⟨bi, -, -, -, hact⟩ := hl
    exact hact
  · intro t ht
    unfold compileModel at ht
    simp only [List.mem_flatMap, List.mem_filter, decide_eq_true_eq] at ht
    obtain ⟨bi, -, -, -, hact⟩ := ht
    exact hact

/-- C5 witness: the amended theorem applied to the concrete model `mC5`,
its only segment, and the line `L` of that segment. -/
theorem C5_amended_only_edges_filtered_by_active_witness :
    lineL.active = true :=
  (C5_amended_only_edges_filtered_by_active mC5 segC5 (by decide)).1 lineL (by decide)

/-- C6 counterexample.  Under the `lpf` method the definitional
"no generation" failure is raised for a segment that *does* contain a
storage unit (only `len(generators) == 0` is tested), refuting the
"if and only if the segment contains no generators and no storage units
… under every calculation method" claim. -/
theorem C6_counterexample_lpf_ignores_storage :
    mStor.storage_units.length = 1 ∧
    PyPSACalculatorLPF.calculate mStor (Except.ok ()) = Except.ok noGenResult :=
  ⟨by decide, rfl⟩

/-- C6 as amended.  The definitional `status = "failed",
condition = "no generation"` result is produced without invoking the
solver iff the segment has no generators and no storage units under
`lopf` and `pf`; under `lpf` the guard tests only that there are no
generators, ignoring storage units. -/
theorem C6_amended_no_generation_guards :
    ∀ (m : Model) (sl : Except Unit (String × String)) (s₁ s₂ : Except Unit Unit),
      (PyPSACalculatorLOPF.calculate m sl = Except.ok noGenResult ↔
        m.generators.length = 0 ∧ m.storage_units.length = 0) ∧
      (PyPSACalculatorPF.calculate m s₂ = Except.ok noGenResult ↔
        m.generators.length = 0 ∧ m.storage_units.length = 0) ∧
      (PyPSACalculatorLPF.calculate m s₁ = Except.ok noGenResult ↔
        m.generators.length = 0) := by
  intro m sl s₁ s₂
  refine ⟨?_, ?_, ?_⟩
  · unfold PyPSACalculatorLOPF.calculate
    split
    · next h => exact iff_of_true rfl h
    · next h =>
      refine iff_of_false (fun hfalse => ?_) h
      cases sl with
      | error e => cases hfalse
      | ok st => simp [noGenResult, CalcResult.mk.injEq] at hfalse
  · unfold PyPSACalculatorPF.calculate
    split
    · next h => exact iff_of_true rfl h
    · next h =>
      refine iff_of_false (fun hfalse => ?_) h
      cases s₂ with
      | error e => simp [noGenResult, CalcResult.mk.injEq] at hfalse
      | ok u => simp [noGenResult, CalcResult.mk.injEq] at hfalse
  · unfold PyPSACalculatorLPF.calculate
    split
    · next h => exact iff_of_true rfl h
    · next h =>
      refine iff_of_false (fun hfalse => ?_) h
      cases s₁ with
      | error e => simp [noGenResult, CalcResult.mk.injEq] at hfalse
      | ok u => simp [noGenResult, CalcResult.mk.injEq] at hfalse

/-- C7 counterexample.  The comparison predicates are not set-based: two
models whose bus lists (resp. generator lists) are permutations of each
other — hence equal as sets under the `(name, changed)` entity equality —
compare unequal, because Python list `==` is elementwise and
order-sensitive. -/
theorem C7_counterexample_order_sensitivity :
    Model.compare_model_structure moAB moBA = false ∧
    moAB.buses.Perm moBA.buses ∧
    moAB.lines = moBA.lines ∧
    Model.compare_model_components mgGH mgHG = false ∧
    mgGH.generators.Perm mgHG.generators ∧
    mgGH.loads = mgHG.loads ∧
    mgGH.storage_units = mgHG.storage_units ∧
    mgGH.transformers = mgHG.transformers := by
  decide

/-- Python list `==` under a key-based element equality is equality of
the key lists. -/
theorem listEqBy_key_iff {α κ : Type} [DecidableEq κ] (f : α → κ)
    (beq : α → α → Bool) (hbeq : ∀ x y, beq x y = true ↔ f x = f y) :
    ∀ l₁ l₂ : List α, listEqBy beq l₁ l₂ = true ↔ l₁.map f = l₂.map f := by
  intro l₁
  induction l₁ with
  | nil =>
    intro l₂
    cases l₂ <;> simp [listEqBy]
  | cons a as ih =>
    intro l₂
    cases l₂ with
    | nil => simp [listEqBy]
    | cons b bs => simp [listEqBy, Bool.and_eq_true, hbeq, ih]

/-- C7 as amended.  The two predicates are order-sensitive list
comparisons: structural equality holds iff the bus and line lists are
elementwise equal under the `(name, changed)` key, and component equality
holds iff the generator, load, storage-unit and transformer lists are
elementwise equal under that key. -/
theorem C7_amended_pointwise_list_equality :
    ∀ a b : Model,
      (Model.compare_model_structure a b = true ↔
        a.buses.map Bus.key = b.buses.map Bus.key ∧
        a.lines.map Line.key = b.lines.map Line.key) ∧
      (Model.compare_model_components a b = true ↔
        a.generators.map Generator.key = b.generators.map Generator.key ∧
        a.loads.map Load.key = b.loads.map Load.key ∧
        a.storage_units.map StorageUnit.key = b.storage_units.map StorageUnit.key ∧
        a.transformers.map Transformer.key = b.transformers.map Transformer.key) := by
  intro a b
  have hb := listEqBy_key_iff Bus.key Bus.beq (fun x y => by simp [Bus.beq])
  have hl := listEqBy_key_iff Line.key Line.beq (fun x y => by simp [Line.beq])
  have hg := listEqBy_key_iff Generator.key Generator.beq
    (fun x y => by simp [Generator.beq])
  have hd := listEqBy_key_iff Load.key Load.beq (fun x y => by simp [Load.beq])
  have hs := listEqBy_key_iff StorageUnit.key StorageUnit.beq
    (fun x y => by simp [StorageUnit.beq])
  have htr := listEqBy_key_iff Transformer.key Transformer.beq
    (fun x y => by simp [Transformer.beq])
  constructor
  · unfold Model.compare_model_structure
    split
    · next h =>
      refine iff_of_false (fun hfalse => by cases hfalse) (fun hmap => ?_)
      rcases h with h | h
      · exact h (by simpa using congrArg List.length hmap.1)
      · exact h (by simpa using congrArg List.length hmap.2)
    · next h =>
      split
      · next h2 =>
        refine iff_of_false (fun hfalse => by cases hfalse) (fun hmap => ?_)
        rcases h2 with h2 | h2
        · exact h2 ((hb _ _).2 hmap.1)
        · exact h2 ((hl _ _).2 hmap.2)
      · next h2 =>
        push_neg at h2
        exact iff_of_true rfl ⟨(hb _ _).1 h2.1, (hl _ _).1 h2.2⟩
  · unfold Model.compare_model_components
    split
    · next h =>
      refine iff_of_false (fun hfalse => by cases hfalse) (fun hmap => ?_)
      rcases h with h | h | h | h
      · exact h (by simpa using congrArg List.length hmap.1)
      · exact h (by simpa using congrArg List.length hmap.2.1)
      · exact h (by simpa using congrArg List.length hmap.2.2.1)
      · exact h (by simpa using congrArg List.length hmap.2.2.2)
    · next h =>
      split
      · next h2 =>
        refine iff_of_false (fun hfalse => by cases hfalse) (fun hmap => ?_)
        rcases h2 with h2 | h2 | h2 | h2
        · exact h2 ((hg _ _).2 hmap.1)
        · exact h2 ((hd _ _).2 hmap.2.1)
        · exact h2 ((hs _ _).2 hmap.2.2.1)
        · exact h2 ((htr _ _).2 hmap.2.2.2)
      · next h2 =>
        push_neg at h2
        exact iff_of_true rfl ⟨(hg _ _).1 h2.1, (hd _ _).1 h2.2.1,
          (hs _ _).1 h2.2.2.1, (htr _ _).1 h2.2.2.2⟩

/-- C3 counterexample.  Under the `lopf` method a raised solver exception
is *not* caught at the slot level: on a segment that reaches the solver,
`PyPSACalculatorLOPF.calculate` propagates the exception (the source has
no `try/except` around `self._pypsa_model.lopf()`), so it escapes the
slot instead of being reported as a warning/failed status. -/
theorem C3_counterexample_lopf_exception_escapes :
    mGen.generators.length = 1 ∧
    PyPSACalculatorLOPF.calculate mGen (Except.error ()) = Except.error () :=
  ⟨by decide, rfl⟩

/-- C3 as amended.  Under `lpf` and `pf` a raised solver exception is
caught at the slot level and reported as `status = "warning",
condition = "failed"`, and a normally returning `calculate` always lets
the slot publish results and set its completion signal; under `lopf` the
exception propagates out of `calculate`, in which case the worker thread
dies without setting its completion signal. -/
theorem C3_amended_exception_containment :
    ∀ (m : Model) (init : SlotState) (r : SolverRunResult),
      (∃ res : CalcResult,
        PyPSACalculatorLPF.calculate m (Except.error ()) = Except.ok res) ∧
      (∃ res : CalcResult,
        PyPSACalculatorPF.calculate m (Except.error ()) = Except.ok res) ∧
      (m.generators.length ≠ 0 →
        PyPSACalculatorLPF.calculate m (Except.error ()) =
          Except.ok ⟨"warning", "failed", true, false⟩) ∧
      (¬ (m.generators.length = 0 ∧ m.storage_units.length = 0) →
        PyPSACalculatorPF.calculate m (Except.error ()) =
          Except.ok ⟨"warning", "failed", true, false⟩) ∧
      (¬ (m.generators.length = 0 ∧ m.storage_units.length = 0) →
        PyPSACalculatorLOPF.calculate m (Except.error ()) = Except.error ()) ∧
      ((calculate_thread_round init (Except.ok r) (Except.ok ())).1.finished_event
        = true) ∧
      ((calculate_thread_round init (Except.error ()) (Except.ok ())).1.finished_event
        = init.finished_event) := by
  intro m init r
  refine ⟨?_, ?_, ?_, ?_, ?_, ?_, ?_⟩
  · unfold PyPSACalculatorLPF.calculate
    split
    · exact ⟨noGenResult, rfl⟩
    · exact ⟨_, rfl⟩
  · unfold PyPSACalculatorPF.calculate
    split
    · exact ⟨noGenResult, rfl⟩
    · exact ⟨_, rfl⟩
  · intro h
    unfold PyPSACalculatorLPF.calculate
    split
    · next hif => exact absurd hif h
    · rfl
  · intro h
    unfold PyPSACalculatorPF.calculate
    split
    · next hif => exact absurd hif h
    · rfl
  · intro h
    unfold PyPSACalculatorLOPF.calculate
    split
    · next hif => exact absurd hif h
    · rfl
  · rfl
  · rfl

/-- C3 witness: the amended theorem applied to the concrete one-generator
segment `mGen` and a concrete slot state. -/
theorem C3_amended_exception_containment_witness :
    PyPSACalculatorLPF.calculate mGen (Except.error ()) =
      Except.ok ⟨"warning", "failed", true, false⟩ ∧
    PyPSACalculatorLOPF.calculate mGen (Except.error ()) = Except.error () :=
  ⟨(C3_amended_exception_containment mGen slot0 run0).2.2.1 (by decide),
   (C3_amended_exception_containment mGen slot0 run0).2.2.2.2.1 (by decide)⟩

/-- C9.  The slot publishes its status, condition and timings and sets
its completion signal strictly before `export_result` is attempted, and
the published round results are identical whether the export succeeds or
raises: the per-slot result fields and the completion flag do not depend
on the export outcome, and in the event trace the completion signal
precedes the export attempt. -/
theorem C9_round_results_independent_of_export :
    ∀ (init : SlotState) (r : SolverRunResult) (e₁ e₂ : Except Unit Unit),
      ((calculate_thread_round init (Except.ok r) e₁).1.status =
        (calculate_thread_round init (Except.ok r) e₂).1.status) ∧
      ((calculate_thread_round init (Except.ok r) e₁).1.status_extended =
        (calculate_thread_round init (Except.ok r) e₂).1.status_extended) ∧
      ((calculate_thread_round init (Except.ok r) e₁).1.build_time =
        (calculate_thread_round init (Except.ok r) e₂).1.build_time) ∧
      ((calculate_thread_round init (Except.ok r) e₁).1.calculation_time =
        (calculate_thread_round init (Except.ok r) e₂).1.calculation_time) ∧
      ((calculate_thread_round init (Except.ok r) e₁).1.finished_event = true) ∧
      ((calculate_thread_round init (Except.ok r) e₁).2 =
        [ThreadEvent.setStatusFields, ThreadEvent.signalFinished,
         ThreadEvent.exportAttempt]) := by
  intro init r e₁ e₂
  cases e₁ <;> cases e₂ <;>
    exact ⟨rfl, rfl, rfl, rfl, rfl, rfl⟩

/-! ## Segmentation machinery: `assignFirst` and `processConnection` -/

/-- A failed `assignFirst` search leaves the list unchanged and certifies
that no entry matching the name is still unassigned. -/
theorem assignFirst_false (nm : String) (gid : Int) :
    ∀ l : List BusIndex, (assignFirst nm gid l).2 = false →
      (assignFirst nm gid l).1 = l ∧
      ∀ b ∈ l, b.bus_name = nm → b.segment ≠ -1 := by
  intro l
  induction l with
  | nil => intro _; exact ⟨rfl, by simp⟩
  | cons b rest ih =>
    intro h
    unfold assignFirst at h ⊢
    split at h
    · cases h
    · next hcond =>
      obtain ⟨h1, h2⟩ := ih h
      rw [if_neg hcond]
      refine ⟨by simp [h1], ?_⟩
      intro x hx hxname
      rcases List.mem_cons.1 hx with rfl | hx
      · intro hseg; exact hcond ⟨hxname, hseg⟩
      · exact h2 x hx hxname

/-- A successful `assignFirst` assigns `gid` to exactly one entry, which
was unassigned and carries the searched name. -/
theorem assignFirst_true (nm : String) (gid : Int) :
    ∀ l : List BusIndex, (assignFirst nm gid l).2 = true →
      ∃ pre e post, l = pre ++ e :: post ∧ e.bus_name = nm ∧ e.segment = -1 ∧
        (assignFirst nm gid l).1 = pre ++ { e with segment := gid } :: post := by
  intro l
  induction l with
  | nil => intro h; cases h
  | cons b rest ih =>
    intro h
    unfold assignFirst at h ⊢
    split at h
    · next hcond =>
      refine ⟨[], b, rest, rfl, hcond.1, hcond.2, ?_⟩
      rw [if_pos hcond]
      rfl
    · next hcond =>
      obtain ⟨pre, e, post, hsplit, hnm, hseg, hres⟩ := ih h
      refine ⟨b :: pre, e, post, by simp [hsplit], hnm, hseg, ?_⟩
      rw [if_neg hcond]
      simp [hres]

/-- A `processConnection` call with result flag `false` leaves the list
unchanged and certifies that neither direction had an unassigned
name-matching target. -/
theorem processConnection_false (bn : String) (gid : Int) (c : Connection)
    (l : List BusIndex) (h : (processConnection bn gid c l).2 = false) :
    (processConnection bn gid c l).1 = l ∧
    (c.bus0 = bn → ∀ y ∈ l, y.bus_name = c.bus1 → y.segment ≠ -1) ∧
    (c.bus1 = bn → ∀ y ∈ l, y.bus_name = c.bus0 → y.segment ≠ -1) := by
  simp only [processConnection] at h ⊢
  by_cases h0 : c.bus0 = bn
  · rw [if_pos h0] at h ⊢
    by_cases h1 : c.bus1 = bn
    · rw [if_pos h1] at h ⊢
      obtain ⟨ha, hb⟩ := Bool.or_eq_false_iff.1 h
      obtain ⟨he0, hn0⟩ := assignFirst_false c.bus1 gid l ha
      rw [he0] at hb ⊢
      obtain ⟨he1, hn1⟩ := assignFirst_false c.bus0 gid l hb
      exact ⟨he1, fun _ => hn0, fun _ => hn1⟩
    · rw [if_neg h1] at h ⊢
      obtain ⟨ha, -⟩ := Bool.or_eq_false_iff.1 h
      obtain ⟨he0, hn0⟩ := assignFirst_false c.bus1 gid l ha
      exact ⟨he0, fun _ => hn0, fun hc => absurd hc h1⟩
  · rw [if_neg h0] at h ⊢
    by_cases h1 : c.bus1 = bn
    · rw [if_pos h1] at h ⊢
      obtain ⟨-, hb⟩ := Bool.or_eq_false_iff.1 h
      obtain ⟨he1, hn1⟩ := assignFirst_false c.bus0 gid l hb
      exact ⟨he1, fun hc => absurd hc h0, fun _ => hn1⟩
    · rw [if_neg h1] at h ⊢
      exact ⟨rfl, fun hc => absurd hc h0, fun hc => absurd hc h1⟩

/-! ## `Connected` helper lemmas -/

/-- The relation `edgeNm` is symmetric. -/
theorem edgeNm_symm {conns : List Connection} {x y : String}
    (h : edgeNm conns x y) : edgeNm conns y x := by
  obtain ⟨c, hc, hcase⟩ := h
  exact ⟨c, hc, hcase.symm⟩

/-- The source of a `Connected` chain is a bus name. -/
theorem Connected.mem_src {m : Model} {x y : String}
    (h : Connected m x y) : x ∈ busNames m := by
  induction h with
  | refl hx => exact hx
  | tail b c hab hbc hc ih => exact ih

/-- The target of a `Connected` chain is a bus name. -/
theorem Connected.mem_dst {m : Model} {x y : String}
    (h : Connected m x y) : y ∈ busNames m := by
  induction h with
  | refl hx => exact hx
  | tail b c hab hbc hc ih => exact hc

/-- The relation `Connected` is transitive. -/
theorem Connected.chain {m : Model} {x y z : String}
    (hxy : Connected m x y) (hyz : Connected m y z) : Connected m x z := by
  induction hyz with
  | refl _ => exact hxy
  | tail b c hab hbc hc ih => exact Connected.tail x b c ih hbc hc

/-- The relation `Connected` is symmetric. -/
theorem Connected.symm {m : Model} {x y : String}
    (h : Connected m x y) : Connected m y x := by
  induction h with
  | refl hw => exact Connected.refl _ hw
  | tail b c hab hbc hc ih =>
    exact Connected.chain
      (Connected.tail c c b (Connected.refl c hc) (edgeNm_symm hbc) hab.mem_dst) ih

/-- One edge between bus names yields connectivity. -/
theorem Connected.of_edge {m : Model} {x y : String}
    (hx : x ∈ busNames m) (hy : y ∈ busNames m)
    (he : edgeNm (connectionList m) x y) : Connected m x y :=
  Connected.tail x x y (Connected.refl x hx) he hy

/-! ## `Reach` and invariant preservation -/

/-- A single justified assignment preserves the flooding invariant. -/
theorem finv_step (m : Model) (gid : Int) (pre post : List BusIndex) (e : BusIndex)
    (hgid : 0 ≤ gid) (he : e.segment = -1)
    (ht : ∃ t ∈ pre ++ e :: post, t.segment = gid ∧
      edgeNm (connectionList m) t.bus_name e.bus_name)
    (hF : FInv m gid (pre ++ e :: post)) :
    FInv m gid (pre ++ { e with segment := gid } :: post) := by
  obtain ⟨t, htmem, htseg, htedge⟩ := ht
  have hmem_cases : ∀ x ∈ pre ++ { e with segment := gid } :: post,
      x = { e with segment := gid } ∨ x ∈ pre ++ e :: post := by
    intro x hx
    rcases List.mem_append.1 hx with h | h
    · exact Or.inr (List.mem_append.2 (Or.inl h))
    · rcases List.mem_cons.1 h with rfl | h
      · exact Or.inl rfl
      · exact Or.inr (List.mem_append.2 (Or.inr (List.mem_cons_of_mem _ h)))
  have hemem : e ∈ pre ++ e :: post :=
    List.mem_append.2 (Or.inr (List.mem_cons_self _ _))
  have hename : e.bus_name ∈ busNames m := hF.names e hemem
  have hconn_new : ∀ x ∈ pre ++ e :: post, x.segment = gid →
      Connected m e.bus_name x.bus_name := by
    intro x hx hxseg
    exact Connected.chain
      (Connected.symm (Connected.of_edge (hF.names t htmem) hename htedge))
      (hF.conn t htmem x hx (htseg ▸ hgid) (htseg.trans hxseg.symm))
  constructor
  · intro x hx
    rcases hmem_cases x hx with rfl | hx'
    · exact hename
    · exact hF.names x hx'
  · intro x hx
    rcases hmem_cases x hx with rfl | hx'
    · exact ⟨show (-1 : Int) ≤ gid by omega, le_refl gid⟩
    · exact hF.range x hx'
  · intro x hx y hy hx0 hxy
    rcases hmem_cases x hx with rfl | hx'
    · rcases hmem_cases y hy with rfl | hy'
      · exact Connected.refl _ hename
      · exact hconn_new y hy' hxy.symm
    · rcases hmem_cases y hy with rfl | hy'
      · exact Connected.symm (hconn_new x hx' hxy)
      · exact hF.conn x hx' y hy' hx0 hxy
  · intro x hx y hy hedge hx0 hxlt
    rcases hmem_cases x hx with rfl | hx'
    · exact absurd hxlt (lt_irrefl gid)
    · rcases hmem_cases y hy with rfl | hy'
      · have hcontra := hF.oldfix x hx' e hemem hedge hx0 hxlt
        rw [he] at hcontra
        omega
      · exact hF.oldfix x hx' y hy' hedge hx0 hxlt

/-- The relation `Reach` is transitive. -/
theorem Reach.seq {m : Model} {gid : Int} {l₁ l₂ l₃ : List BusIndex}
    (h1 : Reach m gid l₁ l₂) (h2 : Reach m gid l₂ l₃) : Reach m gid l₁ l₃ := by
  induction h1 with
  | refl _ => exact h2
  | step pre e post l2 hseg ht hrest ih => exact Reach.step pre e post _ hseg ht (ih h2)

/-- Evolution by `Reach` preserves the flooding invariant. -/
theorem Reach.finv {m : Model} {gid : Int} {l₁ l₂ : List BusIndex}
    (h : Reach m gid l₁ l₂) (hgid : 0 ≤ gid) (hF : FInv m gid l₁) : FInv m gid l₂ := by
  induction h with
  | refl _ => exact hF
  | step pre e post l2 hseg ht hrest ih =>
    exact ih (finv_step m gid pre post e hgid hseg ht hF)

/-- Evolution by `Reach` keeps every already-assigned entry in place. -/
theorem Reach.mem_assigned {m : Model} {gid : Int} {l₁ l₂ : List BusIndex}
    (h : Reach m gid l₁ l₂) : ∀ t ∈ l₁, t.segment ≠ -1 → t ∈ l₂ := by
  induction h with
  | refl _ => exact fun t ht _ => ht
  | step pre e post l2 hseg ht hrest ih =>
    intro t htm htne
    refine ih t ?_ htne
    rcases List.mem_append.1 htm with h | h
    · exact List.mem_append.2 (Or.inl h)
    · rcases List.mem_cons.1 h with rfl | h
      · exact absurd hseg htne
      · exact List.mem_append.2 (Or.inr (List.mem_cons_of_mem _ h))

/-- Evolution by `Reach` preserves the index projection. -/
theorem Reach.map_index {m : Model} {gid : Int} {l₁ l₂ : List BusIndex}
    (h : Reach m gid l₁ l₂) :
    l₂.map BusIndex.index = l₁.map BusIndex.index := by
  induction h with
  | refl _ => rfl
  | step pre e post l2 hseg ht hrest ih => simpa using ih

/-- Evolution by `Reach` preserves the bus-name projection. -/
theorem Reach.map_name {m : Model} {gid : Int} {l₁ l₂ : List BusIndex}
    (h : Reach m gid l₁ l₂) :
    l₂.map BusIndex.bus_name = l₁.map BusIndex.bus_name := by
  induction h with
  | refl _ => rfl
  | step pre e post l2 hseg ht hrest ih => simpa using ih

/-- Evolution by `Reach` never increases the number of unassigned entries. -/
theorem Reach.uc_le {m : Model} {gid : Int} {l₁ l₂ : List BusIndex}
    (h : Reach m gid l₁ l₂) (hgid : 0 ≤ gid) : UC l₂ ≤ UC l₁ := by
  induction h with
  | refl _ => exact le_refl _
  | step pre e post l2 hseg ht hrest ih =>
    refine le_trans ih ?_
    have hne : ¬ ((gid : Int) = -1) := by omega
    simp [UC, List.countP_append, List.countP_cons, hseg, hne]

/-- A justified `assignFirst` call is a `Reach` step. -/
theorem assignFirst_reach (m : Model) (gid : Int) (nm : String) (l : List BusIndex)
    (ht : ∃ t ∈ l, t.segment = gid ∧ edgeNm (connectionList m) t.bus_name nm) :
    Reach m gid l (assignFirst nm gid l).1 := by
  cases hflag : (assignFirst nm gid l).2 with
  | false =>
    rw [(assignFirst_false nm gid l hflag).1]
    exact Reach.refl _
  | true =>
    obtain ⟨pre, e, post, hsplit, hnm, hseg, hres⟩ := assignFirst_true nm gid l hflag
    rw [hres]
    subst hsplit
    obtain ⟨t, htm, hts, hedge⟩ := ht
    exact Reach.step pre e post _ hseg
      ⟨t, htm, hts, by rw [hnm]; exact hedge⟩ (Reach.refl _)

/-- A `processConnection` call justified by a flooding trigger is a
`Reach` evolution. -/
theorem processConnection_reach (m : Model) (gid : Int) (bn : String)
    (c : Connection) (hc : c ∈ connectionList m) (l : List BusIndex)
    (ht : ∃ t ∈ l, t.segment = gid ∧ t.bus_name = bn) (hgid : 0 ≤ gid) :
    Reach m gid l (processConnection bn gid c l).1 := by
  obtain ⟨t, htm, hts, htn⟩ := ht
  simp only [processConnection]
  by_cases h0 : c.bus0 = bn
  · rw [if_pos h0]
    have r0reach : Reach m gid l (assignFirst c.bus1 gid l).1 :=
      assignFirst_reach m gid c.bus1 l
        ⟨t, htm, hts, ⟨c, hc, Or.inl ⟨h0.trans htn.symm, rfl⟩⟩⟩
    by_cases h1 : c.bus1 = bn
    · rw [if_pos h1]
      refine Reach.seq r0reach ?_
      refine assignFirst_reach m gid c.bus0 _ ?_
      exact ⟨t, r0reach.mem_assigned t htm (by rw [hts]; omega), hts,
        ⟨c, hc, Or.inr ⟨rfl, h1.trans htn.symm⟩⟩⟩
    · rw [if_neg h1]
      exact r0reach
  · rw [if_neg h0]
    by_cases h1 : c.bus1 = bn
    · rw [if_pos h1]
      exact assignFirst_reach m gid c.bus0 l
        ⟨t, htm, hts, ⟨c, hc, Or.inr ⟨rfl, h1.trans htn.symm⟩⟩⟩
    · rw [if_neg h1]
      exact Reach.refl _

/-- Unassigned-count bookkeeping for `assignFirst`. -/
theorem assignFirst_uc (nm : String) (gid : Int) (l : List BusIndex)
    (hgid : 0 ≤ gid) :
    UC (assignFirst nm gid l).1 ≤ UC l ∧
    ((assignFirst nm gid l).2 = true → UC (assignFirst nm gid l).1 < UC l) := by
  cases hflag : (assignFirst nm gid l).2 with
  | false =>
    rw [(assignFirst_false nm gid l hflag).1]
    exact ⟨le_refl _, by simp⟩
  | true =>
    obtain ⟨pre, e, post, hsplit, hnm, hseg, hres⟩ := assignFirst_true nm gid l hflag
    rw [hres, hsplit]
    have hne : ¬ ((gid : Int) = -1) := by omega
    have hlt : UC (pre ++ { e with segment := gid } :: post) <
        UC (pre ++ e :: post) := by
      simp [UC, List.countP_append, List.countP_cons, hseg, hne]
    exact ⟨le_of_lt hlt, fun _ => hlt⟩

/-- Unassigned-count bookkeeping for `processConnection`. -/
theorem processConnection_uc (bn : String) (gid : Int) (c : Connection)
    (l : List BusIndex) (hgid : 0 ≤ gid) :
    UC (processConnection bn gid c l).1 ≤ UC l ∧
    ((processConnection bn gid c l).2 = true →
      UC (processConnection bn gid c l).1 < UC l) := by
  simp only [processConnection]
  by_cases h0 : c.bus0 = bn
  · rw [if_pos h0]
    obtain ⟨hle0, hlt0⟩ := assignFirst_uc c.bus1 gid l hgid
    by_cases h1 : c.bus1 = bn
    · rw [if_pos h1]
      obtain ⟨hle1, hlt1⟩ := assignFirst_uc c.bus0 gid (assignFirst c.bus1 gid l).1 hgid
      refine ⟨le_trans hle1 hle0, fun hor => ?_⟩
      rcases Bool.or_eq_true_iff.1 hor with hf | hf
      · exact lt_of_le_of_lt hle1 (hlt0 hf)
      · exact lt_of_lt_of_le (hlt1 hf) hle0
    · rw [if_neg h1]
      exact ⟨hle0, fun hor => by
        rcases Bool.or_eq_true_iff.1 hor with hf | hf
        · exact hlt0 hf
        · cases hf⟩
  · rw [if_neg h0]
    by_cases h1 : c.bus1 = bn
    · rw [if_pos h1]
      obtain ⟨hle1, hlt1⟩ := assignFirst_uc c.bus0 gid l hgid
      exact ⟨hle1, fun hor => by
        rcases Bool.or_eq_true_iff.1 hor with hf | hf
        · cases hf
        · exact hlt1 hf⟩
    · rw [if_neg h1]
      exact ⟨le_refl _, fun hor => by
        rcases Bool.or_eq_true_iff.1 hor with hf | hf <;> cases hf⟩

/-! ## Flood-fill pass lemmas -/

/-- The connection fold of `floodStep` is a `Reach` evolution. -/
theorem floodStep_fold_reach (m : Model) (gid : Int) (bn : String) (hgid : 0 ≤ gid) :
    ∀ (cs : List Connection), (∀ c ∈ cs, c ∈ connectionList m) →
    ∀ (l : List BusIndex) (a : Bool),
    (∃ t ∈ l, t.segment = gid ∧ t.bus_name = bn) →
    Reach m gid l
      (cs.foldl (fun acc c =>
        let r := processConnection bn gid c acc.1
        (r.1, acc.2 || r.2)) (l, a)).1 := by
  intro cs
  induction cs with
  | nil => intro _ l a _; exact Reach.refl _
  | cons c cs ih =>
    intro hsub l a ht
    simp only [List.foldl_cons]
    have hr : Reach m gid l (processConnection bn gid c l).1 :=
      processConnection_reach m gid bn c (hsub c (List.mem_cons_self _ _)) l ht hgid
    refine Reach.seq hr
      (ih (fun c' hc' => hsub c' (List.mem_cons_of_mem _ hc')) _ _ ?_)
    obtain ⟨t, htm, hts, htn⟩ := ht
    exact ⟨t, hr.mem_assigned t htm (by rw [hts]; omega), hts, htn⟩

/-- Unassigned-count bookkeeping for the connection fold. -/
theorem floodStep_fold_uc (gid : Int) (bn : String) (hgid : 0 ≤ gid) :
    ∀ (cs : List Connection) (l : List BusIndex) (a : Bool),
    UC (cs.foldl (fun acc c =>
      let r := processConnection bn gid c acc.1
      (r.1, acc.2 || r.2)) (l, a)).1 ≤ UC l ∧
    ((cs.foldl (fun acc c =>
      let r := processConnection bn gid c acc.1
      (r.1, acc.2 || r.2)) (l, a)).2 = true →
      a = true ∨
      UC (cs.foldl (fun acc c =>
        let r := processConnection bn gid c acc.1
        (r.1, acc.2 || r.2)) (l, a)).1 < UC l) := by
  intro cs
  induction cs with
  | nil => intro l a; exact ⟨le_refl _, fun h => Or.inl h⟩
  | cons c cs ih =>
    intro l a
    simp only [List.foldl_cons]
    obtain ⟨hle, hlt⟩ := processConnection_uc bn gid c l hgid
    obtain ⟨ih1, ih2⟩ := ih (processConnection bn gid c l).1
      (a || (processConnection bn gid c l).2)
    refine ⟨le_trans ih1 hle, fun hflag => ?_⟩
    rcases ih2 hflag with hor | hlt2
    · rcases Bool.or_eq_true_iff.1 hor with ha | hc
      · exact Or.inl ha
      · exact Or.inr (lt_of_le_of_lt ih1 (hlt hc))
    · exact Or.inr (lt_of_lt_of_le hlt2 hle)

/-- A connection fold that starts with its flag raised ends with it
raised. -/
theorem floodStep_fold_flag (gid : Int) (bn : String) :
    ∀ (cs : List Connection) (l : List BusIndex),
    (cs.foldl (fun acc c =>
      let r := processConnection bn gid c acc.1
      (r.1, acc.2 || r.2)) (l, true)).2 = true := by
  intro cs
  induction cs with
  | nil => intro l; rfl
  | cons c cs ih =>
    intro l
    simp only [List.foldl_cons]
    exact ih (processConnection bn gid c l).1

/-- A connection fold reporting no assignment leaves the list unchanged
and certifies every connection made no assignment. -/
theorem floodStep_fold_false (gid : Int) (bn : String) :
    ∀ (cs : List Connection) (l : List BusIndex),
    (cs.foldl (fun acc c =>
      let r := processConnection bn gid c acc.1
      (r.1, acc.2 || r.2)) (l, false)).2 = false →
    (cs.foldl (fun acc c =>
      let r := processConnection bn gid c acc.1
      (r.1, acc.2 || r.2)) (l, false)).1 = l ∧
    ∀ c ∈ cs, (processConnection bn gid c l).2 = false := by
  intro cs
  induction cs with
  | nil => intro l _; exact ⟨rfl, by simp⟩
  | cons c cs ih =>
    intro l h
    simp only [List.foldl_cons] at h ⊢
    cases hflag : (processConnection bn gid c l).2 with
    | true =>
      rw [hflag] at h
      rw [Bool.false_or] at h
      exact absurd (floodStep_fold_flag gid bn cs (processConnection bn gid c l).1) (by
        rw [h]; simp)
    | false =>
      rw [hflag, Bool.false_or] at h
      have hunch := (processConnection_false bn gid c l hflag).1
      rw [hunch] at h ⊢
      obtain ⟨h1, h2⟩ := ih l h
      refine ⟨h1, ?_⟩
      intro c' hc'
      rcases List.mem_cons.1 hc' with rfl | hc'
      · exact hflag
      · exact h2 c' hc'

/-- One pass of the flood fill is a `Reach` evolution. -/
theorem floodPassAux_reach (m : Model) (gid : Int) (hgid : 0 ≤ gid) :
    ∀ (fuel i : Nat) (l : List BusIndex) (a : Bool),
    Reach m gid l (floodPassAux (connectionList m) gid fuel i l a).1 := by
  intro fuel
  induction fuel with
  | zero => intro i l a; exact Reach.refl _
  | succ fuel ih =>
    intro i l a
    cases hgot : l[i]? with
    | none => simp only [floodPassAux, hgot]; exact Reach.refl _
    | some b =>
      by_cases hb : b.segment = gid
      · simp only [floodPassAux, hgot, if_pos hb]
        have hstep : Reach m gid l (floodStep (connectionList m) gid b.bus_name l).1 :=
          floodStep_fold_reach m gid b.bus_name hgid (connectionList m)
            (fun _ hc => hc) l false
            ⟨b, List.getElem?_mem hgot, hb, rfl⟩
        exact Reach.seq hstep (ih (i + 1) _ _)
      · simp only [floodPassAux, hgot, if_neg hb]
        exact ih (i + 1) l a

/-- Unassigned-count bookkeeping for one pass. -/
theorem floodPassAux_uc (conns : List Connection) (gid : Int) (hgid : 0 ≤ gid) :
    ∀ (fuel i : Nat) (l : List BusIndex) (a : Bool),
    UC (floodPassAux conns gid fuel i l a).1 ≤ UC l ∧
    ((floodPassAux conns gid fuel i l a).2 = true →
      a = true ∨ UC (floodPassAux conns gid fuel i l a).1 < UC l) := by
  intro fuel
  induction fuel with
  | zero => intro i l a; exact ⟨le_refl _, fun h => Or.inl h⟩
  | succ fuel ih =>
    intro i l a
    cases hgot : l[i]? with
    | none => simp only [floodPassAux, hgot]; exact ⟨le_refl _, fun h => Or.inl h⟩
    | some b =>
      by_cases hb : b.segment = gid
      · simp only [floodPassAux, hgot, if_pos hb]
        obtain ⟨hle, hlt⟩ := floodStep_fold_uc gid b.bus_name hgid conns l false
        obtain ⟨ih1, ih2⟩ := ih (i + 1)
          (floodStep conns gid b.bus_name l).1
          (a || (floodStep conns gid b.bus_name l).2)
        refine ⟨le_trans ih1 hle, fun hflag => ?_⟩
        rcases ih2 hflag with hor | hlt2
        · rcases Bool.or_eq_true_iff.1 hor with ha | hc
          · exact Or.inl ha
          · have hlt' : UC (floodStep conns gid b.bus_name l).1 < UC l := by
              rcases hlt hc with h' | h'
              · cases h'
              · exact h'
            exact Or.inr (lt_of_le_of_lt ih1 hlt')
        · exact Or.inr (lt_of_lt_of_le hlt2 hle)
      · simp only [floodPassAux, hgot, if_neg hb]
        exact ih (i + 1) l a

/-- A pass whose flag is already raised reports an assignment. -/
theorem floodPassAux_flag (conns : List Connection) (gid : Int) :
    ∀ (fuel i : Nat) (l : List BusIndex),
    (floodPassAux conns gid fuel i l true).2 = true := by
  intro fuel
  induction fuel with
  | zero => intro i l; rfl
  | succ fuel ih =>
    intro i l
    cases hgot : l[i]? with
    | none => simp only [floodPassAux, hgot]
    | some b =>
      by_cases hb : b.segment = gid
      · simp only [floodPassAux, hgot, if_pos hb, Bool.true_or]
        exact ih (i + 1) _
      · simp only [floodPassAux, hgot, if_neg hb]
        exact ih (i + 1) l

/-- A pass reporting no assignment leaves the list unchanged and
certifies that every visited entry at the current grid id could assign
nothing. -/
theorem floodPassAux_false (conns : List Connection) (gid : Int) :
    ∀ (fuel i : Nat) (l : List BusIndex),
    (floodPassAux conns gid fuel i l false).2 = false →
    (floodPassAux conns gid fuel i l false).1 = l ∧
    ∀ (j : Nat) (b : BusIndex), i ≤ j → j < i + fuel → l[j]? = some b →
      b.segment = gid → floodStep conns gid b.bus_name l = (l, false) := by
  intro fuel
  induction fuel with
  | zero =>
    intro i l _
    exact ⟨rfl, fun j b h1 h2 _ _ => absurd h2 (by omega)⟩
  | succ fuel ih =>
    intro i l h
    cases hgot : l[i]? with
    | none =>
      simp only [floodPassAux, hgot] at h ⊢
      refine ⟨by simp, fun j b hij hjf hj _ => ?_⟩
      have hlen : l.length ≤ i := List.getElem?_eq_none_iff.1 hgot
      have : l[j]? = none := List.getElem?_eq_none (by omega)
      rw [this] at hj
      cases hj
    | some b =>
      by_cases hb : b.segment = gid
      · simp only [floodPassAux, hgot, if_pos hb] at h ⊢
        cases hflag : (floodStep conns gid b.bus_name l).2 with
        | true =>
          rw [hflag, Bool.or_true] at h
          exact absurd (floodPassAux_flag conns gid fuel (i + 1)
            (floodStep conns gid b.bus_name l).1) (by rw [h]; simp)
        | false =>
          have hunch : (floodStep conns gid b.bus_name l).1 = l :=
            (floodStep_fold_false gid b.bus_name conns l hflag).1
          rw [hflag, Bool.or_false, hunch] at h
          have hpair : floodStep conns gid b.bus_name l = (l, false) :=
            Prod.ext hunch hflag
          rw [Bool.or_false, hunch]
          obtain ⟨h1, h2⟩ := ih (i + 1) l h
          refine ⟨h1, fun j b' hij hjf hj hbseg => ?_⟩
          by_cases hji : j = i
          · subst hji
            rw [hgot] at hj
            cases hj
            exact hpair
          · exact h2 j b' (by omega) (by omega) hj hbseg
      · simp only [floodPassAux, hgot, if_neg hb] at h ⊢
        obtain ⟨h1, h2⟩ := ih (i + 1) l h
        refine ⟨h1, fun j b' hij hjf hj hbseg => ?_⟩
        by_cases hji : j = i
        · subst hji
          rw [hgot] at hj
          cases hj
          exact absurd hbseg hb
        · exact h2 j b' (by omega) (by omega) hj hbseg

/-- One `floodPass` is a `Reach` evolution. -/
theorem floodPass_reach (m : Model) (gid : Int) (hgid : 0 ≤ gid)
    (l : List BusIndex) :
    Reach m gid l (floodPass (connectionList m) gid l).1 :=
  floodPassAux_reach m gid hgid l.length 0 l false

/-- An allocating `floodPass` strictly decreases the unassigned count. -/
theorem floodPass_uc_lt (conns : List Connection) (gid : Int) (hgid : 0 ≤ gid)
    (l : List BusIndex) (h : (floodPass conns gid l).2 = true) :
    UC (floodPass conns gid l).1 < UC l := by
  rcases (floodPassAux_uc conns gid hgid l.length 0 l false).2 h with h' | h'
  · cases h'
  · exact h'

/-- A non-allocating `floodPass` is the identity and certifies
adjacency closure of the current grid id's class. -/
theorem floodPass_false (conns : List Connection) (gid : Int)
    (l : List BusIndex) (h : (floodPass conns gid l).2 = false) :
    (floodPass conns gid l).1 = l ∧
    ∀ b ∈ l, b.segment = gid →
      floodStep conns gid b.bus_name l = (l, false) := by
  obtain ⟨h1, h2⟩ := floodPassAux_false conns gid l.length 0 l h
  refine ⟨h1, fun b hb hbseg => ?_⟩
  obtain ⟨j, hjlt, hjget⟩ := List.getElem_of_mem hb
  exact h2 j b (by omega) (by omega) (by rw [List.getElem?_eq_getElem hjlt, hjget]) hbseg

/-- The whole `floodLoop` is a `Reach` evolution. -/
theorem floodLoop_reach (m : Model) (gid : Int) (hgid : 0 ≤ gid) :
    ∀ (fuel : Nat) (l : List BusIndex),
    Reach m gid l (floodLoop (connectionList m) gid fuel l) := by
  intro fuel
  induction fuel with
  | zero => intro l; exact Reach.refl _
  | succ fuel ih =>
    intro l
    unfold floodLoop
    by_cases hflag : (floodPass (connectionList m) gid l).2 = true
    · rw [if_pos hflag]
      exact Reach.seq (floodPass_reach m gid hgid l) (ih _)
    · rw [if_neg hflag]
      exact floodPass_reach m gid hgid l

/-- With enough fuel, `floodLoop` reaches a state on which `floodPass`
is a non-allocating fixpoint. -/
theorem floodLoop_fix (conns : List Connection) (gid : Int) (hgid : 0 ≤ gid) :
    ∀ (fuel : Nat) (l : List BusIndex), UC l < fuel →
    floodPass conns gid (floodLoop conns gid fuel l) =
      (floodLoop conns gid fuel l, false) := by
  intro fuel
  induction fuel with
  | zero => intro l h; exact absurd h (by omega)
  | succ fuel ih =>
    intro l h
    unfold floodLoop
    by_cases hflag : (floodPass conns gid l).2 = true
    · rw [if_pos hflag]
      refine ih _ ?_
      have := floodPass_uc_lt conns gid hgid l hflag
      omega
    · rw [if_neg hflag]
      have hflag' : (floodPass conns gid l).2 = false := by
        cases hf : (floodPass conns gid l).2 with
        | true => exact absurd hf hflag
        | false => rfl
      have h1 : (floodPass conns gid l).1 = l := (floodPass_false conns gid l hflag').1
      rw [h1]
      exact Prod.ext h1 hflag'

/-- On a list with no unassigned entry, `floodLoop` is the identity. -/
theorem floodLoop_uc_zero (conns : List Connection) (gid : Int) (hgid : 0 ≤ gid)
    (fuel : Nat) (l : List BusIndex) (h : UC l = 0) :
    floodLoop conns gid fuel l = l := by
  cases fuel with
  | zero => rfl
  | succ fuel =>
    unfold floodLoop
    have hflag : (floodPass conns gid l).2 = false := by
      cases hf : (floodPass conns gid l).2 with
      | false => rfl
      | true =>
        have := floodPass_uc_lt conns gid hgid l hf
        omega
    rw [if_neg (by rw [hflag]; simp)]
    exact (floodPass_false conns gid l hflag).1

/-! ## Seeding and boundary lemmas -/

/-- The count `UC` is zero exactly when no entry is unassigned. -/
theorem uc_eq_zero_iff (l : List BusIndex) :
    UC l = 0 ↔ ∀ b ∈ l, b.segment ≠ -1 := by
  unfold UC
  rw [List.countP_eq_zero]
  constructor
  · intro h b hb
    have := h b hb
    simpa using this
  · intro h b hb
    simpa using h b hb

/-- The `any`-based unassigned test agrees with `UC`. -/
theorem any_unassigned_iff (l : List BusIndex) :
    (l.any (fun b => b.segment == -1) = true) ↔ ¬ (UC l = 0) := by
  rw [List.any_eq_true, uc_eq_zero_iff]
  push_neg
  constructor
  · rintro ⟨b, hb, hseg⟩
    exact ⟨b, hb, by simpa using hseg⟩
  · rintro ⟨b, hb, hseg⟩
    exact ⟨b, hb, by simpa using hseg⟩

/-- With no unassigned entry, seeding does nothing. -/
theorem seedFirst_no_unassigned (gid : Int) :
    ∀ l : List BusIndex, (∀ b ∈ l, b.segment ≠ -1) → seedFirst gid l = l := by
  intro l
  induction l with
  | nil => intro _; rfl
  | cons b rest ih =>
    intro h
    unfold seedFirst
    rw [if_neg (h b (List.mem_cons_self _ _))]
    rw [ih (fun x hx => h x (List.mem_cons_of_mem _ hx))]

/-- With an unassigned entry present, seeding assigns the first one. -/
theorem seedFirst_spec (gid : Int) :
    ∀ l : List BusIndex, (∃ b ∈ l, b.segment = -1) →
    ∃ pre e post, l = pre ++ e :: post ∧ e.segment = -1 ∧
      (∀ b ∈ pre, b.segment ≠ -1) ∧
      seedFirst gid l = pre ++ { e with segment := gid } :: post := by
  intro l
  induction l with
  | nil => rintro ⟨b, hb, -⟩; cases hb
  | cons b rest ih =>
    intro h
    by_cases hb : b.segment = -1
    · refine ⟨[], b, rest, rfl, hb, by simp, ?_⟩
      unfold seedFirst
      rw [if_pos hb]
      rfl
    · obtain ⟨x, hx, hxs⟩ := h
      rcases List.mem_cons.1 hx with rfl | hx
      · exact absurd hxs hb
      · obtain ⟨pre, e, post, hsplit, hseg, hpre, hres⟩ := ih ⟨x, hx, hxs⟩
        refine ⟨b :: pre, e, post, by simp [hsplit], hseg, ?_, ?_⟩
        · intro y hy
          rcases List.mem_cons.1 hy with rfl | hy
          · exact hb
          · exact hpre y hy
        · unfold seedFirst
          rw [if_neg hb, hres]
          simp

/-- The boundary invariant is monotone in the grid-id bound. -/
theorem BInv.mono {m : Model} {g g' : Int} {l : List BusIndex}
    (hB : BInv m g l) (hgg : g ≤ g') : BInv m g' l := by
  refine ⟨⟨hB.fin.names, ?_, hB.fin.conn, ?_⟩, hB.eqadj⟩
  · intro b hb
    exact ⟨(hB.fin.range b hb).1, le_trans (hB.fin.range b hb).2 hgg⟩
  · intro b hb b' hb' hedge h0 hlt
    exact (hB.eqadj b hb b' hb' hedge).symm

/-- Seeding a fresh grid id on a boundary state restores the flooding
invariant at the new id. -/
theorem seed_finv (m : Model) (g : Int) (pre post : List BusIndex) (e : BusIndex)
    (hg : -1 ≤ g) (hB : BInv m g (pre ++ e :: post)) (he : e.segment = -1) :
    FInv m (g + 1) (pre ++ { e with segment := g + 1 } :: post) := by
  have hemem : e ∈ pre ++ e :: post :=
    List.mem_append.2 (Or.inr (List.mem_cons_self _ _))
  have hename : e.bus_name ∈ busNames m := hB.fin.names e hemem
  have hmem_cases : ∀ x ∈ pre ++ { e with segment := g + 1 } :: post,
      x = { e with segment := g + 1 } ∨ x ∈ pre ++ e :: post := by
    intro x hx
    rcases List.mem_append.1 hx with h | h
    · exact Or.inr (List.mem_append.2 (Or.inl h))
    · rcases List.mem_cons.1 h with rfl | h
      · exact Or.inl rfl
      · exact Or.inr (List.mem_append.2 (Or.inr (List.mem_cons_of_mem _ h)))
  constructor
  · intro x hx
    rcases hmem_cases x hx with rfl | hx'
    · exact hename
    · exact hB.fin.names x hx'
  · intro x hx
    rcases hmem_cases x hx with rfl | hx'
    · exact ⟨show (-1 : Int) ≤ g + 1 by omega, le_refl (g + 1)⟩
    · rcases hB.fin.range x hx' with ⟨h1, h2⟩
      exact ⟨h1, by omega⟩
  · intro x hx y hy hx0 hxy
    rcases hmem_cases x hx with rfl | hx'
    · rcases hmem_cases y hy with rfl | hy'
      · exact Connected.refl _ hename
      · exfalso
        have := (hB.fin.range y hy').2
        have hxy' : g + 1 = y.segment := hxy
        omega
    · rcases hmem_cases y hy with rfl | hy'
      · exfalso
        have := (hB.fin.range x hx').2
        have hxy' : x.segment = g + 1 := hxy
        omega
      · exact hB.fin.conn x hx' y hy' hx0 hxy
  · intro x hx y hy hedge hx0 hxlt
    rcases hmem_cases x hx with rfl | hx'
    · exact absurd hxlt (lt_irrefl (g + 1))
    · rcases hmem_cases y hy with rfl | hy'
      · have hcontra := hB.eqadj x hx' e hemem hedge
        rw [he] at hcontra
        omega
      · exact (hB.eqadj x hx' y hy' hedge).symm

/-- After a fixpoint pass, the flooding invariant upgrades to the
boundary invariant. -/
theorem binv_of_fix (m : Model) (gid : Int) (hgid : 0 ≤ gid) (l : List BusIndex)
    (hF : FInv m gid l)
    (hfix : ∀ b ∈ l, b.segment = gid →
      floodStep (connectionList m) gid b.bus_name l = (l, false)) :
    BInv m gid l := by
  have closure : ∀ x ∈ l, x.segment = gid → ∀ y ∈ l,
      edgeNm (connectionList m) x.bus_name y.bus_name → y.segment ≠ -1 := by
    intro x hx hxseg y hy hedge'
    obtain ⟨c, hc, hcase⟩ := hedge'
    have hstep := hfix x hx hxseg
    have hflagf : (floodStep (connectionList m) gid x.bus_name l).2 = false := by
      rw [hstep]
    have hall := (floodStep_fold_false gid x.bus_name (connectionList m) l hflagf).2 c hc
    obtain ⟨-, hd0, hd1⟩ := processConnection_false x.bus_name gid c l hall
    rcases hcase with ⟨h1, h2⟩ | ⟨h1, h2⟩
    · exact hd0 h1 y hy h2.symm
    · exact hd1 h2 y hy h1.symm
  refine ⟨hF, ?_⟩
  intro b hb b' hb' hedge
  rcases hF.range b hb with ⟨hlo, hhi⟩
  by_cases hbneg : b.segment = -1
  · by_cases hb'neg : b'.segment = -1
    · rw [hbneg, hb'neg]
    · exfalso
      rcases hF.range b' hb' with ⟨hlo', hhi'⟩
      by_cases hb'gid : b'.segment = gid
      · exact closure b' hb' hb'gid b hb (edgeNm_symm hedge) hbneg
      · have h0' : 0 ≤ b'.segment := by omega
        have := hF.oldfix b' hb' b hb (edgeNm_symm hedge) h0' (by omega)
        omega
  · by_cases hbgid : b.segment = gid
    · have hb'ne : b'.segment ≠ -1 := closure b hb hbgid b' hb' hedge
      rcases hF.range b' hb' with ⟨hlo', hhi'⟩
      by_cases hb'gid : b'.segment = gid
      · rw [hbgid, hb'gid]
      · have h0' : 0 ≤ b'.segment := by omega
        have := hF.oldfix b' hb' b hb (edgeNm_symm hedge) h0' (by omega)
        omega
    · have h0 : 0 ≤ b.segment := by omega
      exact (hF.oldfix b hb b' hb' hedge h0 (by omega)).symm

/-- Full specification of the outer segmentation loop: with sufficient
fuel it terminates on a boundary-invariant state in which every entry is
assigned, the final grid id strictly exceeds the initial one, and at most
one entry carries the final grid id (the reason a trailing singleton
component is dropped by the compilation phase). -/
theorem outerLoop_spec (m : Model) :
    ∀ (fuel : Nat) (g : Int) (l : List BusIndex), UC l < fuel → -1 ≤ g →
    BInv m g l →
    BInv m (outerLoop (connectionList m) fuel g l).1
      (outerLoop (connectionList m) fuel g l).2 ∧
    UC (outerLoop (connectionList m) fuel g l).2 = 0 ∧
    g < (outerLoop (connectionList m) fuel g l).1 ∧
    ((outerLoop (connectionList m) fuel g l).2.countP
      (fun b => b.segment == (outerLoop (connectionList m) fuel g l).1) ≤ 1) ∧
    (outerLoop (connectionList m) fuel g l).2.map BusIndex.index =
      l.map BusIndex.index ∧
    (outerLoop (connectionList m) fuel g l).2.map BusIndex.bus_name =
      l.map BusIndex.bus_name := by
  intro fuel
  induction fuel with
  | zero => intro g l h _ _; exact absurd h (by omega)
  | succ fuel ih =>
    intro g l hfuel hg hB
    have hgid' : (0 : Int) ≤ g + 1 := by omega
    by_cases huc : UC l = 0
    · -- no unassigned entry: the seed does nothing, the check says
      -- finished, the flood is the identity
      have hseed : seedFirst (g + 1) l = l :=
        seedFirst_no_unassigned (g + 1) l ((uc_eq_zero_iff l).1 huc)
      have hany : (l.any (fun b => b.segment == -1)) = false := by
        cases hval : l.any (fun b => b.segment == -1) with
        | false => rfl
        | true => exact absurd huc ((any_unassigned_iff l).1 hval)
      have hflood : floodLoop (connectionList m) (g + 1) (l.length + 1) l = l :=
        floodLoop_uc_zero (connectionList m) (g + 1) hgid' (l.length + 1) l huc
      have hres : outerLoop (connectionList m) (fuel + 1) g l = (g + 1, l) := by
        simp only [outerLoop, hseed, hflood, hany]
        simp
      rw [hres]
      refine ⟨hB.mono (by omega), huc, by omega, ?_, rfl, rfl⟩
      have hzero : l.countP (fun b => b.segment == g + 1) = 0 := by
        refine List.countP_eq_zero.2 (fun b hb => ?_)
        have := (hB.fin.range b hb).2
        simp only [beq_iff_eq, decide_eq_true_eq]
        omega
      simp only [hzero]
      omega
    · -- an unassigned entry exists: the seed assigns the first one
      obtain ⟨x0, hx0, hx0s⟩ : ∃ b ∈ l, b.segment = -1 := by
        by_contra hcon
        push_neg at hcon
        exact huc ((uc_eq_zero_iff l).2 hcon)
      obtain ⟨pre, e, post, hsplit, hseg, hpreassigned, hseedeq⟩ :=
        seedFirst_spec (g + 1) l ⟨x0, hx0, hx0s⟩
      have hF1 : FInv m (g + 1) (pre ++ { e with segment := g + 1 } :: post) := by
        refine seed_finv m g pre post e hg ?_ hseg
        rw [← hsplit]
        exact hB
      have hne1 : ¬ ((g + 1 : Int) = -1) := by omega
      have huc1 : UC (pre ++ { e with segment := g + 1 } :: post) + 1 = UC l := by
        rw [hsplit]
        unfold UC
        simp [List.countP_append, List.countP_cons, hseg, hne1]
        omega
      have hmapsidx : (pre ++ { e with segment := g + 1 } :: post).map BusIndex.index
          = l.map BusIndex.index := by
        rw [hsplit]; simp
      have hmapsnm : (pre ++ { e with segment := g + 1 } :: post).map BusIndex.bus_name
          = l.map BusIndex.bus_name := by
        rw [hsplit]; simp
      by_cases hfin : UC (pre ++ { e with segment := g + 1 } :: post) = 0
      · -- the seeded entry was the last unassigned one: finished
        have hany1 : ((pre ++ { e with segment := g + 1 } :: post).any
            (fun b => b.segment == -1)) = false := by
          cases hval : (pre ++ { e with segment := g + 1 } :: post).any
              (fun b => b.segment == -1) with
          | false => rfl
          | true => exact absurd hfin ((any_unassigned_iff _).1 hval)
        have hflood1 : floodLoop (connectionList m) (g + 1)
            ((pre ++ { e with segment := g + 1 } :: post).length + 1)
            (pre ++ { e with segment := g + 1 } :: post) =
            pre ++ { e with segment := g + 1 } :: post :=
          floodLoop_uc_zero (connectionList m) (g + 1) hgid' _ _ hfin
        have hres : outerLoop (connectionList m) (fuel + 1) g l =
            (g + 1, pre ++ { e with segment := g + 1 } :: post) := by
          simp only [outerLoop, hseedeq, hflood1, hany1]
          simp
        rw [hres]
        have hflagf : (floodPass (connectionList m) (g + 1)
            (pre ++ { e with segment := g + 1 } :: post)).2 = false := by
          cases hf : (floodPass (connectionList m) (g + 1)
              (pre ++ { e with segment := g + 1 } :: post)).2 with
          | false => rfl
          | true =>
            have := floodPass_uc_lt (connectionList m) (g + 1) hgid' _ hf
            omega
        have hB2 : BInv m (g + 1) (pre ++ { e with segment := g + 1 } :: post) :=
          binv_of_fix m (g + 1) hgid' _ hF1
            (floodPass_false (connectionList m) (g + 1) _ hflagf).2
        refine ⟨hB2, hfin, by omega, ?_, hmapsidx, hmapsnm⟩
        have hpre0 : pre.countP (fun b => b.segment == g + 1) = 0 := by
          refine List.countP_eq_zero.2 (fun b hb => ?_)
          have hble : b.segment ≤ g := by
            refine (hB.fin.range b ?_).2
            rw [hsplit]
            exact List.mem_append.2 (Or.inl hb)
          simp only [beq_iff_eq, decide_eq_true_eq]
          omega
        have hpost0 : post.countP (fun b => b.segment == g + 1) = 0 := by
          refine List.countP_eq_zero.2 (fun b hb => ?_)
          have hble : b.segment ≤ g := by
            refine (hB.fin.range b ?_).2
            rw [hsplit]
            exact List.mem_append.2 (Or.inr (List.mem_cons_of_mem _ hb))
          simp only [beq_iff_eq, decide_eq_true_eq]
          omega
        rw [List.countP_append, List.countP_cons, hpre0, hpost0]
        simp
      · -- more components remain: the loop recurses
        have hreach : Reach m (g + 1) (pre ++ { e with segment := g + 1 } :: post)
            (floodLoop (connectionList m) (g + 1)
              ((pre ++ { e with segment := g + 1 } :: post).length + 1)
              (pre ++ { e with segment := g + 1 } :: post)) :=
          floodLoop_reach m (g + 1) hgid' _ _
        have hfixuc : UC (pre ++ { e with segment := g + 1 } :: post) <
            (pre ++ { e with segment := g + 1 } :: post).length + 1 := by
          have := List.countP_le_length
            (p := fun b => b.segment == -1)
            (l := pre ++ { e with segment := g + 1 } :: post)
          unfold UC
          omega
        have hfixpass := floodLoop_fix (connectionList m) (g + 1) hgid' _ _ hfixuc
        have hflagf : (floodPass (connectionList m) (g + 1)
            (floodLoop (connectionList m) (g + 1)
              ((pre ++ { e with segment := g + 1 } :: post).length + 1)
              (pre ++ { e with segment := g + 1 } :: post))).2 = false := by
          rw [hfixpass]
        have hB2 : BInv m (g + 1)
            (floodLoop (connectionList m) (g + 1)
              ((pre ++ { e with segment := g + 1 } :: post).length + 1)
              (pre ++ { e with segment := g + 1 } :: post)) := by
          exact binv_of_fix m (g + 1) hgid' _ (hreach.finv hgid' hF1)
            (floodPass_false (connectionList m) (g + 1) _ hflagf).2
        have hucl2 : UC (floodLoop (connectionList m) (g + 1)
            ((pre ++ { e with segment := g + 1 } :: post).length + 1)
            (pre ++ { e with segment := g + 1 } :: post)) < fuel := by
          have hle := hreach.uc_le hgid'
          omega
        have hany1 : ((pre ++ { e with segment := g + 1 } :: post).any
            (fun b => b.segment == -1)) = true := by
          cases hval : (pre ++ { e with segment := g + 1 } :: post).any
              (fun b => b.segment == -1) with
          | true => rfl
          | false =>
            exfalso
            refine hfin ((uc_eq_zero_iff _).2 (fun b hb => ?_))
            have := List.any_eq_false.1 hval b hb
            simpa using this
        have hres : outerLoop (connectionList m) (fuel + 1) g l =
            outerLoop (connectionList m) fuel (g + 1)
              (floodLoop (connectionList m) (g + 1)
                ((pre ++ { e with segment := g + 1 } :: post).length + 1)
                (pre ++ { e with segment := g + 1 } :: post)) := by
          simp only [outerLoop, hseedeq, hany1]
          simp
        rw [hres]
        obtain ⟨c1, c2, c3, c4, c5, c6⟩ :=
          ih (g + 1) _ hucl2 (by omega) hB2
        refine ⟨c1, c2, by omega, c4, ?_, ?_⟩
        · rw [c5, hreach.map_index, hmapsidx]
        · rw [c6, hreach.map_name, hmapsnm]

/-! ## The initial bus-index list -/

/-- The indices of the initial bus-index list are `0, 1, …`. -/
theorem init_map_index (busList : List Bus) :
    (initBusIndexList busList).map BusIndex.index =
      List.range busList.length := by
  unfold initBusIndexList
  rw [List.map_map]
  have hcomp : (BusIndex.index ∘ fun i =>
      (⟨i, -1, ((busList[i]?).getD default).name⟩ : BusIndex)) = id := rfl
  rw [hcomp, List.map_id]

/-- The names of the initial bus-index list are the bus names in order. -/
theorem init_map_name (busList : List Bus) :
    (initBusIndexList busList).map BusIndex.bus_name = busList.map Bus.name := by
  unfold initBusIndexList
  rw [List.map_map]
  apply List.ext_getElem?
  intro i
  by_cases hi : i < busList.length
  · rw [List.getElem?_map, List.getElem?_map, List.getElem?_range hi,
      List.getElem?_eq_getElem hi]
    simp [List.getElem?_eq_getElem hi]
  · rw [List.getElem?_map, List.getElem?_map,
      List.getElem?_eq_none (by rw [List.length_range]; omega),
      List.getElem?_eq_none (by omega)]
    rfl

/-- Initially every entry is unassigned. -/
theorem init_uc (busList : List Bus) :
    UC (initBusIndexList busList) = busList.length := by
  unfold UC initBusIndexList
  rw [List.countP_eq_length.2 (by
    intro a ha
    simp only [List.mem_map, List.mem_range] at ha
    obtain ⟨i, hi, rfl⟩ := ha
    rfl)]
  simp

/-- Every entry of the initial list has segment `-1`. -/
theorem init_seg (busList : List Bus) :
    ∀ b ∈ initBusIndexList busList, b.segment = -1 := by
  intro b hb
  unfold initBusIndexList at hb
  simp only [List.mem_map, List.mem_range] at hb
  obtain ⟨i, hi, rfl⟩ := hb
  rfl

/-- The initial list satisfies the boundary invariant at grid id `-1`. -/
theorem init_binv (m : Model) : BInv m (-1) (initBusIndexList m.buses) := by
  have hseg := init_seg m.buses
  have hnames : ∀ b ∈ initBusIndexList m.buses, b.bus_name ∈ busNames m := by
    intro b hb
    have : b.bus_name ∈ (initBusIndexList m.buses).map BusIndex.bus_name :=
      List.mem_map_of_mem _ hb
    rw [init_map_name] at this
    exact this
  refine ⟨⟨hnames, ?_, ?_, ?_⟩, ?_⟩
  · intro b hb
    rw [hseg b hb]
    exact ⟨le_refl _, le_refl _⟩
  · intro b hb b' hb' h0 _
    rw [hseg b hb] at h0
    omega
  · intro b hb b' hb' _ h0 _
    rw [hseg b hb] at h0
    omega
  · intro b hb b' hb' _
    rw [hseg b hb, hseg b' hb']

/-- The complete specification of the segmentation run performed by
`segment_model`. -/
theorem segment_run_spec (m : Model) :
    BInv m (outerLoop (connectionList m) (m.buses.length + 1) (-1)
        (initBusIndexList m.buses)).1
      (outerLoop (connectionList m) (m.buses.length + 1) (-1)
        (initBusIndexList m.buses)).2 ∧
    UC (outerLoop (connectionList m) (m.buses.length + 1) (-1)
        (initBusIndexList m.buses)).2 = 0 ∧
    -1 < (outerLoop (connectionList m) (m.buses.length + 1) (-1)
        (initBusIndexList m.buses)).1 ∧
    ((outerLoop (connectionList m) (m.buses.length + 1) (-1)
        (initBusIndexList m.buses)).2.countP
      (fun b => b.segment ==
        (outerLoop (connectionList m) (m.buses.length + 1) (-1)
          (initBusIndexList m.buses)).1) ≤ 1) ∧
    (outerLoop (connectionList m) (m.buses.length + 1) (-1)
        (initBusIndexList m.buses)).2.map BusIndex.index =
      List.range m.buses.length ∧
    (outerLoop (connectionList m) (m.buses.length + 1) (-1)
        (initBusIndexList m.buses)).2.map BusIndex.bus_name =
      m.buses.map Bus.name := by
  obtain ⟨c1, c2, c3, c4, c5, c6⟩ :=
    outerLoop_spec m (m.buses.length + 1) (-1) (initBusIndexList m.buses)
      (by rw [init_uc]; omega) (le_refl _) (init_binv m)
  exact ⟨c1, c2, c3, c4, by rw [c5, init_map_index], by rw [c6, init_map_name]⟩

/-- Two distinct members both satisfying a predicate give a count of at
least two. -/
theorem countP_two {α : Type} (p : α → Bool) :
    ∀ (l : List α) (a b : α), a ∈ l → b ∈ l → a ≠ b → p a = true →
    p b = true → 2 ≤ l.countP p := by
  intro l
  induction l with
  | nil => intro a b ha _ _ _ _; cases ha
  | cons c cs ih =>
    intro a b ha hb hne hpa hpb
    rcases List.mem_cons.1 ha with rfl | ha'
    · have hb' : b ∈ cs := by
        rcases List.mem_cons.1 hb with rfl | h
        · exact absurd rfl hne
        · exact h
      have h1 : 0 < cs.countP p := List.countP_pos.2 ⟨b, hb', hpb⟩
      rw [List.countP_cons, if_pos hpa]
      omega
    · rcases List.mem_cons.1 hb with rfl | hb'
      · have h1 : 0 < cs.countP p := List.countP_pos.2 ⟨a, ha', hpa⟩
        rw [List.countP_cons, if_pos hpb]
        omega
      · rw [List.countP_cons]
        have := ih a b ha' hb' hne hpa hpb
        omega

/-- Under the boundary adjacency law and distinct bus names, connected
names carry equal segment values. -/
theorem connected_seg_eq (m : Model) (fl : List BusIndex)
    (hnd : (m.buses.map Bus.name).Nodup)
    (hmn : fl.map BusIndex.bus_name = m.buses.map Bus.name)
    (heq : ∀ b ∈ fl, ∀ b' ∈ fl,
      edgeNm (connectionList m) b.bus_name b'.bus_name →
      b.segment = b'.segment) :
    ∀ {x z : String}, Connected m x z → ∀ bx ∈ fl, ∀ bz ∈ fl,
      bx.bus_name = x → bz.bus_name = z → bx.segment = bz.segment := by
  intro x z hconn
  induction hconn with
  | refl hx =>
    intro bx hbx bz hbz hbxn hbzn
    have hndfl : (fl.map BusIndex.bus_name).Nodup := by
      rw [hmn]; exact hnd
    have heqv : bx = bz :=
      List.inj_on_of_nodup_map hndfl hbx hbz (by rw [hbxn, hbzn])
    rw [heqv]
  | tail b c hab hbc hc ih =>
    intro bx hbx bz hbz hbxn hbzn
    have hbmem : b ∈ fl.map BusIndex.bus_name := by
      rw [hmn]; exact hab.mem_dst
    obtain ⟨bb, hbb, hbbn⟩ := List.mem_map.1 hbmem
    have h1 : bx.segment = bb.segment := ih bx hbx bb hbb hbxn hbbn
    have h2 : bb.segment = bz.segment := by
      refine heq bb hbb bz hbz ?_
      rw [hbbn, hbzn]
      exact hbc
    rw [h1, h2]

/-- Every bus-name recorded in the final working list names a bus of the
input model. -/
theorem compiled_name_is_bus (m : Model) (bi : BusIndex)
    (hbi : bi ∈ (outerLoop (connectionList m) (m.buses.length + 1) (-1)
      (initBusIndexList m.buses)).2) :
    ∃ b ∈ m.buses, b.name = bi.bus_name := by
  have hmn := (segment_run_spec m).2.2.2.2.2
  have hmem : bi.bus_name ∈ m.buses.map Bus.name := by
    rw [← hmn]
    exact List.mem_map_of_mem _ hbi
  obtain ⟨b, hb, hbn⟩ := List.mem_map.1 hmem
  exact ⟨b, hb, hbn⟩

/-- C10.  Placement of edges and injections into segments is resolved
solely by matching the entity's `bus0` name against the buses of the
input model: an entity whose `bus0` names no bus of the model is silently
omitted from every returned segment (its `bus1`, if any, is never used
for placement, and no error is raised — `segment_model` is total). -/
theorem C10_bus0_only_placement :
    ∀ (m : Model),
      (∀ l : Line, (∀ b ∈ m.buses, b.name ≠ l.bus0) →
        ∀ seg ∈ segment_model m, l ∉ seg.lines) ∧
      (∀ t : Transformer, (∀ b ∈ m.buses, b.name ≠ t.bus0) →
        ∀ seg ∈ segment_model m, t ∉ seg.transformers) ∧
      (∀ g : Generator, (∀ b ∈ m.buses, b.name ≠ g.bus0) →
        ∀ seg ∈ segment_model m, g ∉ seg.generators) ∧
      (∀ ld : Load, (∀ b ∈ m.buses, b.name ≠ ld.bus0) →
        ∀ seg ∈ segment_model m, ld ∉ seg.loads) ∧
      (∀ s : StorageUnit, (∀ b ∈ m.buses, b.name ≠ s.bus0) →
        ∀ seg ∈ segment_model m, s ∉ seg.storage_units) := by
  intro m
  refine ⟨?_, ?_, ?_, ?_, ?_⟩
  · intro ent hno seg hseg hmem
    unfold segment_model at hseg
    simp only [List.mem_map, List.mem_range] at hseg
    obtain ⟨i, hi, rfl⟩ := hseg
    unfold compileModel at hmem
    simp only [List.mem_flatMap, List.mem_filter, decide_eq_true_eq] at hmem
    obtain ⟨bi, hbi, -, hb0, -⟩ := hmem
    obtain ⟨b, hb, hbn⟩ := compiled_name_is_bus m bi hbi.1
    exact hno b hb (hbn.trans hb0.symm)
  · intro ent hno seg hseg hmem
    unfold segment_model at hseg
    simp only [List.mem_map, List.mem_range] at hseg
    obtain ⟨i, hi, rfl⟩ := hseg
    unfold compileModel at hmem
    simp only [List.mem_flatMap, List.mem_filter, decide_eq_true_eq] at hmem
    obtain ⟨bi, hbi, -, hb0, -⟩ := hmem
    obtain ⟨b, hb, hbn⟩ := compiled_name_is_bus m bi hbi.1
    exact hno b hb (hbn.trans hb0.symm)
  · intro ent hno seg hseg hmem
    unfold segment_model at hseg
    simp only [List.mem_map, List.mem_range] at hseg
    obtain ⟨i, hi, rfl⟩ := hseg
    unfold compileModel at hmem
    simp only [List.mem_flatMap, List.mem_filter, decide_eq_true_eq] at hmem
    obtain ⟨bi, hbi, -, hb0⟩ := hmem
    obtain ⟨b, hb, hbn⟩ := compiled_name_is_bus m bi hbi.1
    exact hno b hb (hbn.trans hb0.symm)
  · intro ent hno seg hseg hmem
    unfold segment_model at hseg
    simp only [List.mem_map, List.mem_range] at hseg
    obtain ⟨i, hi, rfl⟩ := hseg
    unfold compileModel at hmem
    simp only [List.mem_flatMap, List.mem_filter, decide_eq_true_eq] at hmem
    obtain ⟨bi, hbi, -, hb0⟩ := hmem
    obtain ⟨b, hb, hbn⟩ := compiled_name_is_bus m bi hbi.1
    exact hno b hb (hbn.trans hb0.symm)
  · intro ent hno seg hseg hmem
    unfold segment_model at hseg
    simp only [List.mem_map, List.mem_range] at hseg
    obtain ⟨i, hi, rfl⟩ := hseg
    unfold compileModel at hmem
    simp only [List.mem_flatMap, List.mem_filter, decide_eq_true_eq] at hmem
    obtain ⟨bi, hbi, -, hb0⟩ := hmem
    obtain ⟨b, hb, hbn⟩ := compiled_name_is_bus m bi hbi.1
    exact hno b hb (hbn.trans hb0.symm)

/-- C10 witness: in `mGhost` the line `LG` and generator `GG` have
`bus0 = "ghost"`, which names no bus (while `LG.bus1 = "A"` does); both
are omitted from the single returned segment. -/
theorem C10_bus0_only_placement_witness :
    lineGhost ∉ segGhost.lines ∧ genGhost ∉ segGhost.generators :=
  ⟨(C10_bus0_only_placement mGhost).1 lineGhost (by decide) segGhost (by decide),
   (C10_bus0_only_placement mGhost).2.2.1 genGhost (by decide) segGhost (by decide)⟩

/-- Core connectivity equivalence over an abstract final segmentation
state satisfying the run specification. -/
theorem segment_core_iff (m : Model) (hnd : (m.buses.map Bus.name).Nodup)
    (G : Int) (fl : List BusIndex)
    (hB : BInv m G fl) (hUC0 : UC fl = 0)
    (hcnt1 : fl.countP (fun b => b.segment == G) ≤ 1)
    (hmapsidx : fl.map BusIndex.index = List.range m.buses.length)
    (hmapsnm : fl.map BusIndex.bus_name = m.buses.map Bus.name)
    (b1 b2 : Bus) (h1 : b1 ∈ m.buses) (h2 : b2 ∈ m.buses)
    (hne : b1.name ≠ b2.name) :
    (∃ i < G.toNat, b1 ∈ (compileModel m m.buses fl (Int.ofNat i)).buses ∧
        b2 ∈ (compileModel m m.buses fl (Int.ofNat i)).buses) ↔
      Connected m b1.name b2.name := by
  have hflen : fl.length = m.buses.length := by
    have hlen := congrArg List.length hmapsidx
    simpa using hlen
  have hidx : ∀ (j : Nat) (hj : j < fl.length), (fl.get ⟨j, hj⟩).index = j := by
    intro j hj
    have h := congrArg (fun t => t[j]?) hmapsidx
    simp only [List.getElem?_map] at h
    rw [List.getElem?_eq_getElem hj, List.getElem?_range (by omega)] at h
    simpa using h
  have hname : ∀ (j : Nat) (hj : j < fl.length),
      (fl.get ⟨j, hj⟩).bus_name = (m.buses.get ⟨j, by omega⟩).name := by
    intro j hj
    have h := congrArg (fun t => t[j]?) hmapsnm
    simp only [List.getElem?_map] at h
    rw [List.getElem?_eq_getElem hj,
      List.getElem?_eq_getElem (show j < m.buses.length by omega)] at h
    simpa using h
  have hpack : ∀ (bi : BusIndex), bi ∈ fl →
      ((m.buses[bi.index]?).getD default) ∈ m.buses ∧
      ((m.buses[bi.index]?).getD default).name = bi.bus_name := by
    intro bi hbi
    obtain ⟨j, hj, hjeq⟩ := List.getElem_of_mem hbi
    have hidx' : bi.index = j := by
      rw [← hjeq]
      exact hidx j hj
    have hjb : j < m.buses.length := by omega
    have hget : (m.buses[bi.index]?) = some (m.buses.get ⟨j, hjb⟩) := by
      rw [hidx']
      exact List.getElem?_eq_getElem hjb
    constructor
    · rw [hget]
      simp only [Option.getD_some]
      exact List.get_mem m.buses j hjb
    · rw [hget]
      simp only [Option.getD_some]
      have hn := hname j hj
      rw [show fl.get ⟨j, hj⟩ = bi from hjeq] at hn
      exact hn.symm
  constructor
  · rintro ⟨i, hiG, hm1, hm2⟩
    unfold compileModel at hm1 hm2
    simp only [List.mem_map, List.mem_filter, decide_eq_true_eq] at hm1 hm2
    obtain ⟨bi1, ⟨hbi1mem, hbi1seg⟩, hbi1val⟩ := hm1
    obtain ⟨bi2, ⟨hbi2mem, hbi2seg⟩, hbi2val⟩ := hm2
    obtain ⟨-, hn1⟩ := hpack bi1 hbi1mem
    obtain ⟨-, hn2⟩ := hpack bi2 hbi2mem
    rw [hbi1val] at hn1
    rw [hbi2val] at hn2
    have hconn := hB.fin.conn bi1 hbi1mem bi2 hbi2mem
      (by rw [hbi1seg]; exact Int.ofNat_nonneg i)
      (by rw [hbi1seg, hbi2seg])
    rw [hn1, hn2]
    exact hconn
  · intro hconn
    obtain ⟨j1, hj1b, hj1eq⟩ := List.getElem_of_mem h1
    obtain ⟨j2, hj2b, hj2eq⟩ := List.getElem_of_mem h2
    have hj1 : j1 < fl.length := by omega
    have hj2 : j2 < fl.length := by omega
    have hn1 : (fl.get ⟨j1, hj1⟩).bus_name = b1.name := by
      rw [hname j1 hj1]
      exact congrArg Bus.name hj1eq
    have hn2 : (fl.get ⟨j2, hj2⟩).bus_name = b2.name := by
      rw [hname j2 hj2]
      exact congrArg Bus.name hj2eq
    have hmm1 : fl.get ⟨j1, hj1⟩ ∈ fl := List.get_mem fl j1 hj1
    have hmm2 : fl.get ⟨j2, hj2⟩ ∈ fl := List.get_mem fl j2 hj2
    have hseq : (fl.get ⟨j1, hj1⟩).segment = (fl.get ⟨j2, hj2⟩).segment :=
      connected_seg_eq m fl hnd hmapsnm hB.eqadj hconn _ hmm1 _ hmm2 hn1 hn2
    have hsne : (fl.get ⟨j1, hj1⟩).segment ≠ -1 :=
      (uc_eq_zero_iff fl).1 hUC0 _ hmm1
    have hrange := hB.fin.range _ hmm1
    have hs0 : 0 ≤ (fl.get ⟨j1, hj1⟩).segment := by omega
    have hbine : fl.get ⟨j1, hj1⟩ ≠ fl.get ⟨j2, hj2⟩ := by
      intro heq
      apply hne
      rw [← hn1, ← hn2, heq]
    have hslt : (fl.get ⟨j1, hj1⟩).segment < G := by
      rcases lt_or_eq_of_le hrange.2 with h | h
      · exact h
      · exfalso
        have h2' : (fl.get ⟨j2, hj2⟩).segment = G := by
          rw [← hseq]
          exact h
        have hcount := countP_two (fun b => b.segment == G) fl _ _ hmm1 hmm2
          hbine (by simp only [beq_iff_eq]; exact h)
          (by simp only [beq_iff_eq]; exact h2')
        omega
    refine ⟨(fl.get ⟨j1, hj1⟩).segment.toNat, by omega, ?_, ?_⟩
    · unfold compileModel
      simp only [List.mem_map, List.mem_filter, decide_eq_true_eq]
      refine ⟨fl.get ⟨j1, hj1⟩, ⟨hmm1, (Int.toNat_of_nonneg hs0).symm⟩, ?_⟩
      rw [hidx j1 hj1, List.getElem?_eq_getElem hj1b]
      simpa using hj1eq
    · unfold compileModel
      simp only [List.mem_map, List.mem_filter, decide_eq_true_eq]
      refine ⟨fl.get ⟨j2, hj2⟩, ⟨hmm2, ?_⟩, ?_⟩
      · rw [← hseq]
        exact (Int.toNat_of_nonneg hs0).symm
      · rw [hidx j2 hj2, List.getElem?_eq_getElem hj2b]
        simpa using hj2eq

/-- C8.  Connectivity correctness of segmentation: under the data-model
invariant that bus names are unique within a model, two distinct buses of
the input are placed in one common returned segment iff a path joins
their names in the undirected graph whose edges are exactly the model's
active lines and active transformers. -/
theorem C8_connectivity_correct (m : Model)
    (hnd : (m.buses.map Bus.name).Nodup)
    (b1 b2 : Bus) (h1 : b1 ∈ m.buses) (h2 : b2 ∈ m.buses)
    (hne : b1.name ≠ b2.name) :
    (∃ seg ∈ segment_model m, b1 ∈ seg.buses ∧ b2 ∈ seg.buses) ↔
      Connected m b1.name b2.name := by
  obtain ⟨hB, hUC0, hGpos, hcnt1, hmapsidx, hmapsnm⟩ := segment_run_spec m
  have hcore := segment_core_iff m hnd
    (outerLoop (connectionList m) (m.buses.length + 1) (-1)
      (initBusIndexList m.buses)).1
    (outerLoop (connectionList m) (m.buses.length + 1) (-1)
      (initBusIndexList m.buses)).2
    hB hUC0 hcnt1 hmapsidx hmapsnm b1 b2 h1 h2 hne
  rw [← hcore]
  unfold segment_model
  constructor
  · rintro ⟨seg, hseg, hp⟩
    simp only [List.mem_map, List.mem_range] at hseg
    obtain ⟨i, hi, rfl⟩ := hseg
    exact ⟨i, hi, hp⟩
  · rintro ⟨i, hi, hp1, hp2⟩
    refine ⟨compileModel m m.buses
      (outerLoop (connectionList m) (m.buses.length + 1) (-1)
        (initBusIndexList m.buses)).2 (Int.ofNat i), ?_, hp1, hp2⟩
    simp only [List.mem_map, List.mem_range]
    exact ⟨i, hi, rfl⟩

/-- C8 witness: the theorem applied to the two-bus model `mAB` whose
buses `A` and `B` are joined by one active line; since both land in the
same returned segment, the forward direction yields connectivity. -/
theorem C8_connectivity_correct_witness : Connected mAB busA.name busB.name :=
  (C8_connectivity_correct mAB (by decide) busA busB (by decide) (by decide)
    (by decide)).mp (by decide)

end Tafel
